import Mathlib

/-!
Shallow embedding of the pylal `ligolw_cafe` coincidence front end
(src/pylal/ligolw_cafe.py), together with the fragments of the glue
segment library and of the pylal `packing` module that it relies on.
Times and offsets are modelled as rationals.  Fallible operations
(glue raises ValueError on the extent of an empty segment-set, and
`min`/`max` of an empty sequence raise) are modelled with Option.
-/

namespace Cafe

/-- Instrument names.  glue uses plain strings; they are modelled as
natural-number codes, Python's lexicographic order on names becoming
the order on the codes (any order isomorphism preserves every
behaviour of the source that depends on name comparison). -/
abbrev Inst := ℕ

/-- A time interval: glue.segments.segment, with rational endpoints. -/
structure Seg where
  lo : ℚ
  hi : ℚ
deriving DecidableEq, Repr

/-- glue.segments.segmentlist: a list of segments. -/
abbrev SegList := List Seg

/-- glue.segments.segmentlistdict: instrument name -> segment list,
modelled as an association list (keys distinct by construction). -/
abbrev SLDict := List (Inst × SegList)

/-- An offset vector: instrument -> time shift.  The association list is
the canonical representation of the Python dict: its item list. -/
abbrev OffsetVec := List (Inst × ℚ)

/-- glue segment.intersects(other): `self[1] > other[0] and self[0] < other[1]`
(nonzero overlap; touching endpoints do not intersect). -/
def segIntersects (a b : Seg) : Bool := b.lo < a.hi && a.lo < b.hi

/-- glue segment.protract(x): `segment(self[0] - x, self[1] + x)`. -/
def Seg.protract (s : Seg) (x : ℚ) : Seg := ⟨s.lo - x, s.hi + x⟩

/-- glue segment.disjoint(other) is nonzero (truthy) iff
`self[0] > other[1] or self[1] < other[0]`: no overlap and no touching. -/
def segDisjoint (a b : Seg) : Bool := b.hi < a.lo || a.hi < b.lo

/-- glue segmentlist.shift(x) applied to one segment. -/
def segShift (o : ℚ) (s : Seg) : Seg := ⟨s.lo + o, s.hi + o⟩

/-- glue segmentlist.intersects(other): some pair of segments overlaps. -/
def listsIntersect (l1 l2 : SegList) : Bool :=
  l1.any fun s => l2.any fun t => segIntersects s t

/-- Python tuple order on segments: (lo, hi) lexicographically. -/
def segLe (a b : Seg) : Prop := a.lo < b.lo ∨ (a.lo = b.lo ∧ a.hi ≤ b.hi)

instance : DecidableRel segLe := fun a b => by unfold segLe; infer_instance

instance : IsTotal Seg segLe :=
  ⟨fun a b => by
    unfold segLe
    rcases lt_trichotomy a.lo b.lo with h | h | h
    · exact Or.inl (Or.inl h)
    · rcases le_total a.hi b.hi with h2 | h2
      · exact Or.inl (Or.inr ⟨h, h2⟩)
      · exact Or.inr (Or.inr ⟨h.symm, h2⟩)
    · exact Or.inr (Or.inl h)⟩

instance : IsTrans Seg segLe :=
  ⟨fun a b c hab hbc => by
    unfold segLe at *
    rcases hab with h1 | ⟨h1, h1'⟩ <;> rcases hbc with h2 | ⟨h2, h2'⟩
    · exact Or.inl (h1.trans h2)
    · exact Or.inl (h2 ▸ h1)
    · exact Or.inl (h1 ▸ h2)
    · exact Or.inr ⟨h1.trans h2, h1'.trans h2'⟩⟩

/-- glue segmentlist.coalesce, merge phase: the list is already sorted by
(lo, hi); overlapping or touching segments are joined and zero-length
segments are dropped. -/
def coaMerge (lo hi : ℚ) : SegList → SegList
  | [] => if lo = hi then [] else [⟨lo, hi⟩]
  | s :: rest =>
      if s.lo ≤ hi then coaMerge lo (max hi s.hi) rest
      else (if lo = hi then [] else [⟨lo, hi⟩]) ++ coaMerge s.lo s.hi rest

/-- glue segmentlist.coalesce: sort, then merge. -/
def coalesce (l : SegList) : SegList :=
  match List.insertionSort segLe l with
  | [] => []
  | s :: rest => coaMerge s.lo s.hi rest

/-- glue segmentlistdict `self[key] |= value` / `self[key] = copy(value)`
for one key, as used by segmentlistdict.__iadd__ and __ior__. -/
def sldInsert (d : SLDict) (k : Inst) (l : SegList) : SLDict :=
  if (d.lookup k).isSome then
    d.map fun kl => if kl.1 = k then (kl.1, coalesce (kl.2 ++ l)) else kl
  else d ++ [(k, l)]

/-- glue segmentlistdict.__iadd__ / __ior__: per-key coalescing union. -/
def sldUnion (a b : SLDict) : SLDict :=
  b.foldl (fun acc kl => sldInsert acc kl.1 kl.2) a

/-- Python min over a non-empty list (none models the ValueError on an
empty sequence). -/
def listMin : List ℚ → Option ℚ
  | [] => none
  | x :: xs => some (xs.foldl min x)

/-- Python max over a non-empty list. -/
def listMax : List ℚ → Option ℚ
  | [] => none
  | x :: xs => some (xs.foldl max x)

/-- All segments of all lists of a segmentlistdict. -/
def allSegs (d : SLDict) : SegList := (d.map Prod.snd).flatten

/-- glue segmentlistdict.extent_all: the tightest segment bounding all
segments of all lists; none models the ValueError on an empty set. -/
def extent_all (d : SLDict) : Option Seg :=
  match listMin ((allSegs d).map Seg.lo), listMax ((allSegs d).map Seg.hi) with
  | some lo, some hi => some ⟨lo, hi⟩
  | _, _ => none

/-- glue.lal.CacheEntry: an instrument set, one GPS segment and an
identity tag standing for the description/url fields. -/
structure Entry where
  insts : List Inst
  seg : Seg
  tag : ℕ
deriving DecidableEq, Repr

/-- CacheEntry.to_segmentlistdict: each of the entry's instruments maps
to the entry's single segment. -/
def Entry.to_segmentlistdict (e : Entry) : SLDict :=
  e.insts.map fun i => (i, [e.seg])

/-- The per-offset-vector coincidence test performed by CafePacker.pack:
`offsets.update(v)` on both dicts followed by
`is_coincident(other, keys = v.keys())`.  Only the lists of instruments
named by `v` take part in the restricted test, each shifted by its
offset in `v`; offsets of instruments outside `v` (stale values from
earlier updates) never enter it, so the mutate-and-clear of the source
is equivalent to this pure function. -/
def is_coincident (v : OffsetVec) (a b : SLDict) : Bool :=
  let ra := a.filterMap fun kl => (v.lookup kl.1).map fun o => kl.2.map (segShift o)
  let rb := b.filterMap fun kl => (v.lookup kl.1).map fun o => kl.2.map (segShift o)
  ra.any fun la => rb.any fun lb => listsIntersect la lb

/-- Python list order on offset-vector item lists: lexicographic on
(instrument, offset) pairs, the key used by set_offset_vectors. -/
def vecLe : List (Inst × ℚ) → List (Inst × ℚ) → Prop
  | [], _ => True
  | _ :: _, [] => False
  | a :: xs, b :: ys =>
      a.1 < b.1 ∨ (a.1 = b.1 ∧ (a.2 < b.2 ∨ (a.2 = b.2 ∧ vecLe xs ys)))

def decVecLe : (l1 l2 : List (Inst × ℚ)) → Decidable (vecLe l1 l2)
  | [], _ => isTrue trivial
  | _ :: _, [] => isFalse fun h => h
  | a :: xs, b :: ys =>
      have : Decidable (vecLe xs ys) := decVecLe xs ys
      by unfold vecLe; infer_instance

instance : DecidableRel vecLe := decVecLe

/-- The configured state of a CafePacker: the canonically sorted
offset-vector list and max_gap. -/
structure Config where
  offset_vectors : List OffsetVec
  max_gap : ℚ
deriving DecidableEq, Repr

def vecValsMin (v : OffsetVec) : Option ℚ := listMin (v.map Prod.snd)

def vecValsMax (v : OffsetVec) : Option ℚ := listMax (v.map Prod.snd)

def listMapM (f : α → Option β) : List α → Option (List β)
  | [] => some []
  | x :: xs =>
      match f x, listMapM f xs with
      | some y, some ys => some (y :: ys)
      | _, _ => none

/-- CafePacker.set_offset_vectors: sort the vectors by their sorted item
lists, and store max_gap = (max offset over all vectors) - (min offset
over all vectors).  none models the ValueError raised by min()/max()
when the vector list is empty or some vector is an empty mapping.  The
source's `assert self.max_gap >= 0` is not modelled as a failure;
theorem c10_max_gap_nonneg shows its condition always holds. -/
def set_offset_vectors (vs : List OffsetVec) : Option Config :=
  match listMapM vecValsMin vs, listMapM vecValsMax vs with
  | some mins, some maxs =>
      match listMin mins, listMax maxs with
      | some mn, some mx => some ⟨List.insertionSort vecLe vs, mx - mn⟩
      | _, _ => none
  | _, _ => none

/-- LALCacheBin.  The packing.Bin base class lives in pylal/packing.py,
which is not under src/; its `objects` list, `add` (append + size
union) and `__iadd__` (concatenate + size union) are modelled from the
spec (section 4.1).  `extent` caches extent_all of `size`, recomputed
on every membership change. -/
structure LALCacheBin where
  objects : List Entry
  size : SLDict
  extent : Seg
deriving DecidableEq, Repr

abbrev Bin := LALCacheBin

/-- `new = LALCacheBin(); new.add(entry, entry.to_segmentlistdict())`:
a fresh singleton bin.  none models extent_all's ValueError for an
entry with no instruments. -/
def mkBin (e : Entry) : Option Bin :=
  (extent_all (sldUnion [] e.to_segmentlistdict)).map fun ext =>
    ⟨[e], sldUnion [] e.to_segmentlistdict, ext⟩

/-- LALCacheBin.__iadd__: concatenate memberships, union sizes,
recompute the extent. -/
def binIAdd (a b : Bin) : Option Bin :=
  (extent_all (sldUnion a.size b.size)).map fun ext =>
    ⟨a.objects ++ b.objects, sldUnion a.size b.size, ext⟩

def binFoldM : Bin → List Bin → Option Bin
  | acc, [] => some acc
  | acc, b :: rest =>
      match binIAdd acc b with
      | none => none
      | some acc2 => binFoldM acc2 rest

/-- LALCacheBin.__cmp__: bins compare by extent, (lo, hi)
lexicographically. -/
def binLe (a b : Bin) : Prop := segLe a.extent b.extent

instance : DecidableRel binLe := fun a b => by unfold binLe; infer_instance

instance : IsTotal Bin binLe := ⟨fun a b => IsTotal.total (r := segLe) a.extent b.extent⟩

instance : IsTrans Bin binLe :=
  ⟨fun _ _ _ hab hbc => Trans.trans (r := segLe) (s := segLe) hab hbc⟩

/-- The bail-out test of CafePacker.pack:
`bin.extent[1] < new.extent[0] - self.max_gap`. -/
def bailOut (gap : ℚ) (nb b : Bin) : Bool := b.extent.hi < nb.extent.lo - gap

/-- Does some configured offset vector make the bin and the candidate
coincident? -/
def binMatches (vs : List OffsetVec) (nb b : Bin) : Bool :=
  vs.any fun v => is_coincident v b.size nb.size

/-- The bins examined by the backward scan of pack(): the suffix of the
(ascending) bin list, taken backwards, up to but not including the
first bin that triggers the bail-out. -/
def packScanned (cfg : Config) (bins : List Bin) (nb : Bin) : List Bin :=
  bins.reverse.takeWhile fun b => !bailOut cfg.max_gap nb b

/-- The bins the bail-out skips: the rest of the backward traversal. -/
def packUnscanned (cfg : Config) (bins : List Bin) (nb : Bin) : List Bin :=
  bins.reverse.dropWhile fun b => !bailOut cfg.max_gap nb b

/-- The scanned bins that match the candidate, in descending index
order (the order matching_bins records them). -/
def packMatched (cfg : Config) (bins : List Bin) (nb : Bin) : List Bin :=
  (packScanned cfg bins nb).filter fun b => binMatches cfg.offset_vectors nb b

/-- The scanned bins that do not match the candidate. -/
def packUnmatched (cfg : Config) (bins : List Bin) (nb : Bin) : List Bin :=
  (packScanned cfg bins nb).filter fun b => !binMatches cfg.offset_vectors nb b

/-- The body of CafePacker.pack once the candidate singleton bin has
been built.  The existing bins (kept sorted ascending by extent) are
scanned backwards; the scan stops at the first bin whose extent end
precedes the candidate's start by more than max_gap; all scanned bins
that pass the per-vector coincidence test are merged with the candidate
(the bin at the smallest matching index -- the last one recorded --
absorbs the candidate and then, in descending index order, the other
matching bins); with no match the candidate is appended as a new bin;
finally the bin list is re-sorted by extent.  (The sort makes the
position at which the merged bin re-enters the list irrelevant except
for the order of bins with equal extents.) -/
def packWith (cfg : Config) (bins : List Bin) (nb : Bin) : Option (List Bin) :=
  match packMatched cfg bins nb with
  | [] => some (List.insertionSort binLe (bins ++ [nb]))
  | m :: ms =>
      match binIAdd ((m :: ms).getLast (List.cons_ne_nil m ms)) nb with
      | none => none
      | some merged0 =>
          match binFoldM merged0 ((m :: ms).dropLast) with
          | none => none
          | some merged =>
              some (List.insertionSort binLe
                ((packUnscanned cfg bins nb).reverse
                  ++ (packUnmatched cfg bins nb).reverse ++ [merged]))

/-- CafePacker.pack(cache_entry): build the candidate singleton bin and
run the scan/merge/re-sort body. -/
def pack (cfg : Config) (bins : List Bin) (e : Entry) : Option (List Bin) :=
  match mkBin e with
  | none => none
  | some nb => packWith cfg bins nb

/-- A sequence of pack() calls starting from the given bin list. -/
def packAll (cfg : Config) : List Bin → List Entry → Option (List Bin)
  | bins, [] => some bins
  | bins, e :: rest =>
      match pack cfg bins e with
      | none => none
      | some bins2 => packAll cfg bins2 rest

/-- An extended time value: the split boundaries of split_bins use
segments.infinity() sentinels at both ends. -/
inductive XT
  | neg
  | fin (q : ℚ)
  | pos
deriving DecidableEq, Repr

/-- Intersection of a finite segment with one split window, as computed
by glue's `segmentlist & segmentlist([segment(bounds)])`: clamp both
endpoints into the window and keep the result when it is non-degenerate.
A negatively infinite upper bound or positively infinite lower bound
(never produced by split_bins) yields an empty intersection. -/
def clipSeg (wlo whi : XT) (s : Seg) : Option Seg :=
  let lo : ℚ :=
    match wlo with
    | .neg => s.lo
    | .fin c => max s.lo c
    | .pos => s.hi + 1
  let hi : ℚ :=
    match whi with
    | .neg => s.lo - 1
    | .fin c => min s.hi c
    | .pos => s.hi
  if lo < hi then some ⟨lo, hi⟩ else none

/-- `origbin.size & split` followed by the deletion of keys left with an
empty segment list (ligolw_cafe.py lines 311-314). -/
def clipDict (d : SLDict) (w : XT × XT) : SLDict :=
  d.filterMap fun kl =>
    match kl.2.filterMap (clipSeg w.1 w.2) with
    | [] => none
    | l => some (kl.1, l)

/-- The n - 1 interior split times:
`extent[0] + i * (extent[1] - extent[0]) / n` for i = 1 .. n - 1. -/
def cutPoints (ext : Seg) (n : ℕ) : List ℚ :=
  (List.range (n - 1)).map fun i : ℕ => ext.lo + ((i : ℚ) + 1) * (ext.hi - ext.lo) / (n : ℚ)

/-- The split boundary list `[-infinity] + splits + [+infinity]`. -/
def windowBounds (ext : Seg) (n : ℕ) : List XT :=
  XT.neg :: ((cutPoints ext n).map XT.fin ++ [XT.pos])

/-- The n split windows: `zip(splits[:-1], splits[1:])`. -/
def windows (ext : Seg) (n : ℕ) : List (XT × XT) :=
  (windowBounds ext n).zip (windowBounds ext n).tail

/-- glue _offsets.update(v): set the offset of every instrument named by
v (the source only touches keys present in the dict; offsets of absent
instruments are inert, so keeping them here is equivalent). -/
def offUpdate (off : List (Inst × ℚ)) (v : OffsetVec) : List (Inst × ℚ) :=
  v.foldl
    (fun acc kv =>
      if (acc.lookup kv.1).isSome then
        acc.map fun kv2 => if kv2.1 = kv.1 then (kv2.1, kv.2) else kv2
      else acc ++ [kv])
    off

/-- Apply an offset state to a segmentlistdict. -/
def applyOff (off : List (Inst × ℚ)) (d : SLDict) : SLDict :=
  d.map fun kl =>
    match off.lookup kl.1 with
    | some o => (kl.1, kl.2.map (segShift o))
    | none => kl

/-- glue segmentlistdict.intersects_segment(seg): some segment of some
list overlaps seg. -/
def intersects_segment (d : SLDict) (s : Seg) : Bool :=
  d.any fun kl => kl.2.any fun t => segIntersects t s

/-- The offset-vector loop of split_bins over one (sub-bin, entry) pair:
`cache_entry_segs.offsets.update(offset_vector)` accumulates across
vectors (the source never clears the offsets between vectors), and the
shifted dict is tested against the sub-bin's unextended extent. -/
def entryVecLoop (sld : SLDict) (ext : Seg) : List OffsetVec → List (Inst × ℚ) → Bool
  | [], _ => false
  | v :: vs, off =>
      let off2 := offUpdate off v
      if intersects_segment (applyOff off2 sld) ext then true
      else entryVecLoop sld ext vs off2

/-- Does split_bins append this entry to this sub-bin?  Quick disjointness
check of the unshifted entry segment against the max_gap-protracted
sub-bin extent, then the accumulated-offset vector loop against the
unextended extent. -/
def entryMatches (cfg : Config) (nb : Bin) (e : Entry) : Bool :=
  if segDisjoint e.seg (nb.extent.protract cfg.max_gap) then false
  else entryVecLoop e.to_segmentlistdict nb.extent cfg.offset_vectors []

/-- Split one oversized bin into n sub-bins: clip the size dict to each
window, recompute extents (none models extent_all's ValueError when a
window captures no segment), then populate each sub-bin with every
member entry that passes entryMatches for it.  The loop over sub-bins
rescans all of origbin.objects for each sub-bin: the `break` in the
source only leaves the offset-vector loop. -/
def splitOne (cfg : Config) (b : Bin) (n : ℕ) : Option (List Bin) :=
  match listMapM
      (fun w =>
        match extent_all (clipDict b.size w) with
        | some ext => some (⟨[], clipDict b.size w, ext⟩ : Bin)
        | none => none)
      (windows b.extent n) with
  | none => none
  | some nbs =>
      some (nbs.map fun nb => { nb with objects := b.objects.filter (entryMatches cfg nb) })

/-- split_bins(cafepacker, extentlimit): replace every bin whose extent
duration exceeds the limit by its ceil(duration / limit) sub-bins, in
place; sub-bins are never re-split. -/
def split_bins (cfg : Config) (L : ℚ) : List Bin → Option (List Bin)
  | [] => some []
  | b :: rest =>
      if (⌈(b.extent.hi - b.extent.lo) / L⌉ : ℤ) ≤ 1 then
        match split_bins cfg L rest with
        | none => none
        | some out => some (b :: out)
      else
        match splitOne cfg b (⌈(b.extent.hi - b.extent.lo) / L⌉ : ℤ).toNat,
            split_bins cfg L rest with
        | some nbs, some out => some (nbs ++ out)
        | _, _ => none

/-- cache_to_seglistdict: coalesced union of the entries' per-instrument
segment sets. -/
def cache_to_seglistdict (cache : List Entry) : SLDict :=
  cache.foldl (fun acc e => sldUnion acc e.to_segmentlistdict) []

/-- glue segmentlistdict.intersects_all(other): every list of other
intersects the corresponding list of self, and other is non-empty. -/
def intersects_all (d other : SLDict) : Bool :=
  (other.all fun kl =>
    match d.lookup kl.1 with
    | some l => listsIntersect l kl.2
    | none => false) && !other.isEmpty

/-- Coalesced intersection of two segment lists. -/
def listInterQ (l1 l2 : SegList) : SegList :=
  coalesce (l1.flatMap fun s =>
    l2.filterMap fun t =>
      if max s.lo t.lo < min s.hi t.hi then some ⟨max s.lo t.lo, min s.hi t.hi⟩
      else none)

/-- Modelled from the spec: ligolw_tisi.time_slide_component_vectors(vs, 2)
is not under src/; per spec section 4.4 step 3 it yields every
2-instrument sub-combination implied by the configured offset vectors. -/
def component_vectors_2 (vs : List OffsetVec) : List OffsetVec :=
  vs.flatMap fun v => v.sublistsLen 2

/-- Coincident coverage contributed by one 2-instrument component
vector: the times at which both instruments' shifted coverage overlaps,
mapped back to each instrument's own (unshifted) clock.  A component
naming an instrument absent from the coverage map contributes nothing. -/
def pairCoverage (cov : SLDict) (p : OffsetVec) : SLDict :=
  match p with
  | [(i1, o1), (i2, o2)] =>
      match cov.lookup i1, cov.lookup i2 with
      | some l1, some l2 =>
          let inter := listInterQ (l1.map (segShift o1)) (l2.map (segShift o2))
          [(i1, inter.map (segShift (-o1))), (i2, inter.map (segShift (-o2)))]
      | _, _ => []
  | _ => []

/-- Modelled from the spec: llwapp.get_coincident_segmentlistdict is not
under src/; per spec section 4.4 step 3 it unions, over every
2-instrument component vector whose instruments are present in the
coverage map, the per-pair coincident coverage. -/
def get_coincident_segmentlistdict (cov : SLDict) (comps : List OffsetVec) : SLDict :=
  comps.foldl (fun acc p => sldUnion acc (pairCoverage cov p)) []

/-- The driver's filtering step (ligolw_cafe.py line 452): keep the
entries whose own segmentlistdict passes intersects_all against the
coincident coverage map. -/
def cafe_filter (sl : SLDict) (cache : List Entry) : List Entry :=
  cache.filter fun e => intersects_all sl e.to_segmentlistdict

/-- The driver's entry sort key `lambda x: x.segment`: order entries by
their bounding interval, (lo, hi) lexicographically. -/
def entryLe (a b : Entry) : Prop := segLe a.seg b.seg

instance : DecidableRel entryLe := fun a b => by unfold entryLe; infer_instance

/-- ligolw_cafe(cache, offset_vectors, extentlimit): compute the
coincident coverage (modelled from the spec, see
get_coincident_segmentlistdict; the epoch normalization of the source
is a pure performance transform and exact on rationals), filter the
cache with intersects_all, time-sort it, configure a packer, pack every
entry, optionally split, and sort each output bin's members (modelled
from the spec, section 4.4 step 8: by bounding interval). -/
def ligolw_cafe (cache : List Entry) (vs : List OffsetVec) (L : Option ℚ) :
    Option (SLDict × List Bin) :=
  let cov := cache_to_seglistdict cache
  let seglists := get_coincident_segmentlistdict cov (component_vectors_2 vs)
  let filtered := cafe_filter seglists cache
  let sorted := List.insertionSort entryLe filtered
  match set_offset_vectors vs with
  | none => none
  | some cfg =>
      match packAll cfg [] sorted with
      | none => none
      | some bins =>
          match L with
          | none =>
              some (seglists,
                bins.map fun b => { b with objects := List.insertionSort entryLe b.objects })
          | some lim =>
              match split_bins cfg lim bins with
              | none => none
              | some bins2 =>
                  some (seglists,
                    bins2.map fun b => { b with objects := List.insertionSort entryLe b.objects })

/-- The packing-and-splitting phase of the driver, downstream of the
filter: configure the packer, time-sort the entries, pack each one,
and optionally split. -/
def packer_phase (vs : List OffsetVec) (cache : List Entry) (L : Option ℚ) :
    Option (List Bin) :=
  match set_offset_vectors vs with
  | none => none
  | some cfg =>
      match packAll cfg [] (List.insertionSort entryLe cache) with
      | none => none
      | some bins =>
          match L with
          | none => some bins
          | some lim => split_bins cfg lim bins

/-- The multiset of member entries over a list of bins. -/
def objsM (bins : List Bin) : Multiset Entry :=
  ((bins.map fun b => (b.objects : Multiset Entry)) : List (Multiset Entry)).sum

/-- The successive accumulated offset states of the split_bins vector
loop: state i is the fold of offUpdate over the first i + 1 vectors. -/
def cumOffs (off : List (Inst × ℚ)) : List OffsetVec → List (List (Inst × ℚ))
  | [] => []
  | v :: vs => offUpdate off v :: cumOffs (offUpdate off v) vs

/-- Every offset value appearing in a list of offset vectors. -/
def allOffsets (vs : List OffsetVec) : List ℚ :=
  vs.flatMap fun v => v.map Prod.snd

/-- The coincidence notion quantified over by the closure claim: some
configured offset vector makes the two entries' shifted segment-sets
intersect on an instrument shared by both and named by the vector. -/
def sharedInstCoinc (v : OffsetVec) (a b : Entry) : Bool :=
  v.any fun kv =>
    match a.to_segmentlistdict.lookup kv.1, b.to_segmentlistdict.lookup kv.1 with
    | some la, some lb => listsIntersect (la.map (segShift kv.2)) (lb.map (segShift kv.2))
    | _, _ => false

/-!  Concrete run on which the pack() bail-out separates a coincident
pair.  Instrument codes: 0 = W, 1 = X, 2 = Y, 3 = Z.  Vectors
{W:0, X:0} and {Y:0, Z:0}; max_gap = 0.  The X entries [0,1000] and
[500,510] are coincident on the shared instrument X, but when
[500,510] is packed the backward scan immediately reaches the bin
[50,80] (built from the Y and Z entries), whose extent end 80 precedes
500 - max_gap, and bails out -- skipping the earlier bin [0,1000] that
matches. -/

def c1e1 : Entry := ⟨[1], ⟨0, 1000⟩, 1⟩

def c1e5 : Entry := ⟨[0], ⟨0, 1000⟩, 5⟩

def c1e2 : Entry := ⟨[2], ⟨50, 80⟩, 2⟩

def c1e4 : Entry := ⟨[3], ⟨50, 80⟩, 4⟩

def c1e3 : Entry := ⟨[1], ⟨500, 510⟩, 3⟩

def c1cache : List Entry := [c1e1, c1e5, c1e2, c1e4, c1e3]

def c1v1 : OffsetVec := [(0, 0), (1, 0)]

def c1v2 : OffsetVec := [(2, 0), (3, 0)]

def c1vecs : List OffsetVec := [c1v1, c1v2]

def c1seglists : SLDict :=
  get_coincident_segmentlistdict (cache_to_seglistdict c1cache) (component_vectors_2 c1vecs)

def c1bins : List Bin := ((ligolw_cafe c1cache c1vecs none).map Prod.snd).getD []

def c1cfg : Config := (set_offset_vectors c1vecs).getD ⟨[], 0⟩

/-- The packer state just before the entry [500,510] is packed. -/
def c5bins : List Bin := (packAll c1cfg [] [c1e1, c1e5, c1e2, c1e4]).getD []

/-- The candidate singleton bin for the entry [500,510]. -/
def c5nb : Bin := (mkBin c1e3).getD ⟨[], [], ⟨0, 0⟩⟩

def c5out : List Bin := (pack c1cfg c5bins c1e3).getD []

/-!  Concrete run on which split_bins duplicates an entry across two
sub-bins.  Instrument codes: 0 = X, 1 = Y.  Vectors {X:0, Y:0} and
{X:0, Y:-100}; max_gap = 100.  Packing gives a single bin with extent
[0,300]; the split at limit 150 cuts it at 150, and the Y entry
[150,300] (shifted to [50,200] by the second vector) intersects both
sub-bin extents [0,140] and [150,300], so the sub-bin loop appends it
to both. -/

def c2e1 : Entry := ⟨[0], ⟨0, 100⟩, 1⟩

def c2e3 : Entry := ⟨[0], ⟨120, 140⟩, 3⟩

def c2e2 : Entry := ⟨[1], ⟨150, 300⟩, 2⟩

def c2vecs : List OffsetVec := [[(0, 0), (1, 0)], [(0, 0), (1, -100)]]

def c2cfg : Config := (set_offset_vectors c2vecs).getD ⟨[], 0⟩

def c2packed : List Bin := (packAll c2cfg [] [c2e1, c2e3, c2e2]).getD []

def c2out : List Bin := (split_bins c2cfg 150 c2packed).getD []

/-- The single packed bin of the C2 run. -/
def c2bin : Bin := c2packed.headD ⟨[], [], ⟨0, 0⟩⟩

/-- Its two sub-bins as built by splitOne. -/
def c2nbs : List Bin := (splitOne c2cfg c2bin 2).getD []

/-- The second sub-bin, extent [150, 300]. -/
def c2sb2 : Bin := (c2nbs.getLast?).getD ⟨[], [], ⟨0, 0⟩⟩

/-!  Concrete data for the split-bound witness: one bin spanning
[0, 250] split with limit 100 into ceil(250/100) = 3 sub-bins. -/

def c4entry : Entry := ⟨[0], ⟨0, 250⟩, 1⟩

def c4cfg : Config := ⟨[[(0, 0)]], 0⟩

def c4bin : Bin := (mkBin c4entry).getD ⟨[], [], ⟨0, 0⟩⟩

def c4out : List Bin := (split_bins c4cfg 100 [c4bin]).getD []

/-!  Concrete data for the filter witness: a coverage map on instrument
0, one entry intersecting it and one entry with no instruments. -/

def c7sl : SLDict := [(0, [⟨0, 10⟩])]

def c7good : Entry := ⟨[0], ⟨5, 15⟩, 1⟩

def c7empty : Entry := ⟨[], ⟨5, 15⟩, 2⟩

def c7cache : List Entry := [c7good, c7empty]

def c7vecs : List OffsetVec := [[(0, 0)]]

/-- The C2 vector list in the opposite order, for the determinism
witness. -/
def c9vecsrev : List OffsetVec := [[(0, 0), (1, -100)], [(0, 0), (1, 0)]]

set_option maxRecDepth 100000

unseal Rat.add Rat.sub Rat.mul Rat.inv

/-- C1: the coincidence-closure property fails on the code.  On the
concrete five-entry cache every entry survives the driver's filtering,
the entries [0,1000] and [500,510] on instrument X are coincident under
the configured vector {W:0, X:0} on their shared, named instrument X,
yet after all pack() calls they sit in different bins: the bail-out of
the backward scan stops at the later-sorted bin [50,80] and never tests
the earlier bin [0,1000]. -/
theorem c1_closure_fails_on_code :
    sharedInstCoinc c1v1 c1e1 c1e3 = true
  ∧ c1v1 ∈ c1vecs
  ∧ (∀ e ∈ c1cache, intersects_all c1seglists e.to_segmentlistdict = true)
  ∧ (ligolw_cafe c1cache c1vecs none).isSome = true
  ∧ (∃ b ∈ c1bins, c1e1 ∈ b.objects)
  ∧ (∃ b ∈ c1bins, c1e3 ∈ b.objects)
  ∧ (∀ b ∈ c1bins, ¬(c1e1 ∈ b.objects ∧ c1e3 ∈ b.objects)) := by decide

/-- C5: the claim that no bin skipped by the bail-out can match the
candidate fails on the code.  In the packer state reached after the
first four entries of the C1 cache, packing [500,510] bails out at the
very first scanned bin (the backward takeWhile is empty), although the
skipped bin [0,1000] does match the candidate under a configured
vector; the candidate therefore lands in a bin of its own, separated
from its coincident partner. -/
theorem c5_bailout_skips_matching_bin :
    set_offset_vectors c1vecs = some c1cfg
  ∧ packAll c1cfg [] [c1e1, c1e5, c1e2, c1e4] = some c5bins
  ∧ mkBin c1e3 = some c5nb
  ∧ packScanned c1cfg c5bins c5nb = []
  ∧ c5bins ≠ []
  ∧ (∃ b ∈ c5bins, binMatches c1cfg.offset_vectors c5nb b = true
       ∧ bailOut c1cfg.max_gap c5nb b = false)
  ∧ pack c1cfg c5bins c1e3 = some c5out
  ∧ (∃ b ∈ c5out, c1e3 ∈ b.objects ∧ c1e1 ∉ b.objects)
  ∧ (∀ b ∈ c5out, ¬(c1e1 ∈ b.objects ∧ c1e3 ∈ b.objects)) := by decide

/-- C2, counterexample: split_bins does not reassign each member entry
to exactly one sub-bin.  On the concrete single-bin state, the Y entry
[150,300] is a member of the bin being split and ends up in two of the
sub-bins, so the first-match/no-duplication policy and the post-split
partition property are violated. -/
theorem c2_split_duplicates_entry :
    set_offset_vectors c2vecs = some c2cfg
  ∧ packAll c2cfg [] [c2e1, c2e3, c2e2] = some c2packed
  ∧ split_bins c2cfg 150 c2packed = some c2out
  ∧ c2packed.length = 1
  ∧ (∃ b ∈ c2packed, c2e2 ∈ b.objects)
  ∧ (c2out.countP fun b => decide (c2e2 ∈ b.objects)) = 2
  ∧ objsM c2out ≠ objsM c2packed := by decide

/-- C8, counterexample: a non-empty offset-vector list on which
configuration nevertheless fails: a list containing one empty mapping
makes `min(offset_vector.values())` raise. -/
theorem c8_empty_vector_fails :
    set_offset_vectors [([] : OffsetVec)] = none
  ∧ ([([] : OffsetVec)] : List OffsetVec) ≠ [] := by decide

theorem foldl_min_le_init (x : ℚ) (l : List ℚ) : l.foldl min x ≤ x := by
  induction l generalizing x with
  | nil => exact le_refl x
  | cons y ys ih => exact le_trans (ih (min x y)) (min_le_left x y)

theorem foldl_min_le_mem {y : ℚ} {l : List ℚ} (x : ℚ) (hy : y ∈ l) :
    l.foldl min x ≤ y := by
  induction l generalizing x with
  | nil => cases hy
  | cons a l2 ih =>
    rcases List.mem_cons.mp hy with h | h
    · subst h
      exact le_trans (foldl_min_le_init (min x y) l2) (min_le_right x y)
    · exact ih (min x a) h

theorem foldl_min_mem (x : ℚ) (l : List ℚ) : l.foldl min x ∈ x :: l := by
  induction l generalizing x with
  | nil => exact List.mem_singleton.mpr rfl
  | cons a l2 ih =>
    have h := ih (min x a)
    rcases List.mem_cons.mp h with h2 | h2
    · rcases min_choice x a with hc | hc
      · rw [show (a :: l2).foldl min x = l2.foldl min (min x a) from rfl, h2, hc]
        exact List.mem_cons_self x (a :: l2)
      · rw [show (a :: l2).foldl min x = l2.foldl min (min x a) from rfl, h2, hc]
        exact List.mem_cons.mpr (Or.inr (List.mem_cons_self a l2))
    · exact List.mem_cons.mpr (Or.inr (List.mem_cons.mpr (Or.inr h2)))

theorem foldl_max_ge_init (x : ℚ) (l : List ℚ) : x ≤ l.foldl max x := by
  induction l generalizing x with
  | nil => exact le_refl x
  | cons y ys ih => exact le_trans (le_max_left x y) (ih (max x y))

theorem foldl_max_ge_mem {y : ℚ} {l : List ℚ} (x : ℚ) (hy : y ∈ l) :
    y ≤ l.foldl max x := by
  induction l generalizing x with
  | nil => cases hy
  | cons a l2 ih =>
    rcases List.mem_cons.mp hy with h | h
    · subst h
      exact le_trans (le_max_right x y) (foldl_max_ge_init (max x y) l2)
    · exact ih (max x a) h

theorem foldl_max_mem (x : ℚ) (l : List ℚ) : l.foldl max x ∈ x :: l := by
  induction l generalizing x with
  | nil => exact List.mem_singleton.mpr rfl
  | cons a l2 ih =>
    have h := ih (max x a)
    rcases List.mem_cons.mp h with h2 | h2
    · rcases max_choice x a with hc | hc
      · rw [show (a :: l2).foldl max x = l2.foldl max (max x a) from rfl, h2, hc]
        exact List.mem_cons_self x (a :: l2)
      · rw [show (a :: l2).foldl max x = l2.foldl max (max x a) from rfl, h2, hc]
        exact List.mem_cons.mpr (Or.inr (List.mem_cons_self a l2))
    · exact List.mem_cons.mpr (Or.inr (List.mem_cons.mpr (Or.inr h2)))

theorem listMin_mem {l : List ℚ} {m : ℚ} (h : listMin l = some m) : m ∈ l := by
  cases l with
  | nil => cases h
  | cons x xs =>
    have : xs.foldl min x = m := Option.some.inj h
    rw [← this]
    exact foldl_min_mem x xs

theorem listMin_le {l : List ℚ} {m : ℚ} (h : listMin l = some m) :
    ∀ y ∈ l, m ≤ y := by
  cases l with
  | nil => cases h
  | cons x xs =>
    have hm : xs.foldl min x = m := Option.some.inj h
    intro y hy
    rcases List.mem_cons.mp hy with h2 | h2
    · rw [← hm, h2]; exact foldl_min_le_init x xs
    · rw [← hm]; exact foldl_min_le_mem x h2

theorem listMax_mem {l : List ℚ} {m : ℚ} (h : listMax l = some m) : m ∈ l := by
  cases l with
  | nil => cases h
  | cons x xs =>
    have : xs.foldl max x = m := Option.some.inj h
    rw [← this]
    exact foldl_max_mem x xs

theorem listMax_ge {l : List ℚ} {m : ℚ} (h : listMax l = some m) :
    ∀ y ∈ l, y ≤ m := by
  cases l with
  | nil => cases h
  | cons x xs =>
    have hm : xs.foldl max x = m := Option.some.inj h
    intro y hy
    rcases List.mem_cons.mp hy with h2 | h2
    · rw [← hm, h2]; exact foldl_max_ge_init x xs
    · rw [← hm]; exact foldl_max_ge_mem x h2

theorem listMin_isSome {l : List ℚ} (h : l ≠ []) : (listMin l).isSome := by
  cases l with
  | nil => exact absurd rfl h
  | cons x xs => rfl

theorem listMax_isSome {l : List ℚ} (h : l ≠ []) : (listMax l).isSome := by
  cases l with
  | nil => exact absurd rfl h
  | cons x xs => rfl

theorem listMin_eq_some_iff {l : List ℚ} {m : ℚ} :
    listMin l = some m ↔ m ∈ l ∧ ∀ y ∈ l, m ≤ y := by
  constructor
  · intro h; exact ⟨listMin_mem h, listMin_le h⟩
  · rintro ⟨hmem, hle⟩
    have hne : l ≠ [] := List.ne_nil_of_mem hmem
    obtain ⟨m0, hm0⟩ := Option.isSome_iff_exists.mp (listMin_isSome hne)
    have h1 : m0 ≤ m := listMin_le hm0 m hmem
    have h2 : m ≤ m0 := hle m0 (listMin_mem hm0)
    rw [hm0, le_antisymm h1 h2]

theorem listMax_eq_some_iff {l : List ℚ} {m : ℚ} :
    listMax l = some m ↔ m ∈ l ∧ ∀ y ∈ l, y ≤ m := by
  constructor
  · intro h; exact ⟨listMax_mem h, listMax_ge h⟩
  · rintro ⟨hmem, hle⟩
    have hne : l ≠ [] := List.ne_nil_of_mem hmem
    obtain ⟨m0, hm0⟩ := Option.isSome_iff_exists.mp (listMax_isSome hne)
    have h1 : m ≤ m0 := listMax_ge hm0 m hmem
    have h2 : m0 ≤ m := hle m0 (listMax_mem hm0)
    rw [hm0, le_antisymm h2 h1]

theorem listMapM_length {f : α → Option β} :
    ∀ {l : List α} {l2 : List β}, listMapM f l = some l2 → l2.length = l.length := by
  intro l
  induction l with
  | nil => intro l2 h; cases h; rfl
  | cons x xs ih =>
    intro l2 h
    unfold listMapM at h
    cases hfx : f x with
    | none => rw [hfx] at h; cases h
    | some y =>
      cases hrest : listMapM f xs with
      | none => rw [hfx, hrest] at h; cases h
      | some ys =>
        rw [hfx, hrest] at h
        cases h
        simp [ih hrest]

theorem listMapM_forward {f : α → Option β} :
    ∀ {l : List α} {l2 : List β}, listMapM f l = some l2 →
      ∀ x ∈ l, ∃ y ∈ l2, f x = some y := by
  intro l
  induction l with
  | nil => intro l2 _ x hx; cases hx
  | cons a xs ih =>
    intro l2 h x hx
    unfold listMapM at h
    cases hfa : f a with
    | none => rw [hfa] at h; cases h
    | some y =>
      cases hrest : listMapM f xs with
      | none => rw [hfa, hrest] at h; cases h
      | some ys =>
        rw [hfa, hrest] at h
        cases h
        rcases List.mem_cons.mp hx with h2 | h2
        · exact ⟨y, List.mem_cons_self y ys, h2 ▸ hfa⟩
        · obtain ⟨y2, hy2, hfy2⟩ := ih hrest x h2
          exact ⟨y2, List.mem_cons.mpr (Or.inr hy2), hfy2⟩

theorem listMapM_backward {f : α → Option β} :
    ∀ {l : List α} {l2 : List β}, listMapM f l = some l2 →
      ∀ y ∈ l2, ∃ x ∈ l, f x = some y := by
  intro l
  induction l with
  | nil => intro l2 h y hy; cases h; cases hy
  | cons a xs ih =>
    intro l2 h y hy
    unfold listMapM at h
    cases hfa : f a with
    | none => rw [hfa] at h; cases h
    | some y0 =>
      cases hrest : listMapM f xs with
      | none => rw [hfa, hrest] at h; cases h
      | some ys =>
        rw [hfa, hrest] at h
        cases h
        rcases List.mem_cons.mp hy with h2 | h2
        · exact ⟨a, List.mem_cons_self a xs, h2 ▸ hfa⟩
        · obtain ⟨x, hx, hfx⟩ := ih hrest y h2
          exact ⟨x, List.mem_cons.mpr (Or.inr hx), hfx⟩

theorem listMapM_isSome {f : α → Option β} :
    ∀ {l : List α}, (∀ x ∈ l, (f x).isSome) → (listMapM f l).isSome := by
  intro l
  induction l with
  | nil => intro _; rfl
  | cons a xs ih =>
    intro h
    unfold listMapM
    obtain ⟨y, hy⟩ := Option.isSome_iff_exists.mp (h a (List.mem_cons_self a xs))
    obtain ⟨ys, hys⟩ := Option.isSome_iff_exists.mp (ih fun x hx => h x (List.mem_cons.mpr (Or.inr hx)))
    rw [hy, hys]
    rfl

/-- C10: for every offset-vector list accepted by set_offset_vectors,
the stored max_gap is non-negative (the global maximum offset is at
least the global minimum offset), so the source's
`assert self.max_gap >= 0` can never fail. -/
theorem c10_max_gap_nonneg (vs : List OffsetVec) (cfg : Config)
    (h : set_offset_vectors vs = some cfg) : 0 ≤ cfg.max_gap := by
  unfold set_offset_vectors at h
  cases hmins : listMapM vecValsMin vs with
  | none => rw [hmins] at h; cases h
  | some mins =>
  cases hmaxs : listMapM vecValsMax vs with
  | none => rw [hmins, hmaxs] at h; cases h
  | some maxs =>
  rw [hmins, hmaxs] at h
  simp only at h
  cases hmn : listMin mins with
  | none => rw [hmn] at h; cases h
  | some mn =>
  cases hmx : listMax maxs with
  | none => rw [hmn, hmx] at h; cases h
  | some mx =>
  rw [hmn, hmx] at h
  cases h
  have hvs : vs ≠ [] := by
    intro hnil
    subst hnil
    cases hmins
    cases hmn
  obtain ⟨v0, rest, rfl⟩ := List.exists_cons_of_ne_nil hvs
  have h0 : ∃ m0 ∈ mins, vecValsMin v0 = some m0 :=
    listMapM_forward hmins v0 (List.mem_cons_self v0 rest)
  have h1 : ∃ mx0 ∈ maxs, vecValsMax v0 = some mx0 :=
    listMapM_forward hmaxs v0 (List.mem_cons_self v0 rest)
  obtain ⟨m0, hm0mem, hm0⟩ := h0
  obtain ⟨mx0, hmx0mem, hmx0⟩ := h1
  have hv0 : m0 ≤ mx0 := by
    have hmem := listMin_mem hm0
    exact listMax_ge hmx0 m0 hmem
  have hlo : mn ≤ m0 := listMin_le hmn m0 hm0mem
  have hhi : mx0 ≤ mx := listMax_ge hmx mx0 hmx0mem
  simp only
  linarith

/-- C10 witness. -/
theorem c10_max_gap_nonneg_witness :
    set_offset_vectors c2vecs = some c2cfg ∧ 0 ≤ c2cfg.max_gap :=
  ⟨by decide, c10_max_gap_nonneg c2vecs c2cfg (by decide)⟩

/-- C8 (amended): configuring with an empty offset-vector list fails,
and for every non-empty offset-vector list all of whose vectors name at
least one instrument, configuration succeeds and stores
max_gap = (maximum offset value over all vectors) - (minimum offset
value over all vectors). -/
theorem c8_configure_amended :
    set_offset_vectors ([] : List OffsetVec) = none
  ∧ ∀ vs : List OffsetVec, vs ≠ [] → (∀ v ∈ vs, v ≠ []) →
      ∃ cfg, set_offset_vectors vs = some cfg
        ∧ ∃ mn mx, mn ∈ allOffsets vs ∧ mx ∈ allOffsets vs
            ∧ (∀ o ∈ allOffsets vs, mn ≤ o ∧ o ≤ mx)
            ∧ cfg.max_gap = mx - mn := by
  constructor
  · rfl
  · intro vs hne hvne
    have hminsS : (listMapM vecValsMin vs).isSome := by
      apply listMapM_isSome
      intro v hv
      apply listMin_isSome
      simpa using hvne v hv
    have hmaxsS : (listMapM vecValsMax vs).isSome := by
      apply listMapM_isSome
      intro v hv
      apply listMax_isSome
      simpa using hvne v hv
    obtain ⟨mins, hmins⟩ := Option.isSome_iff_exists.mp hminsS
    obtain ⟨maxs, hmaxs⟩ := Option.isSome_iff_exists.mp hmaxsS
    have hminsne : mins ≠ [] := by
      intro hnil
      apply hne
      have := listMapM_length hmins
      rw [hnil] at this
      exact List.length_eq_zero.mp this.symm
    have hmaxsne : maxs ≠ [] := by
      intro hnil
      apply hne
      have := listMapM_length hmaxs
      rw [hnil] at this
      exact List.length_eq_zero.mp this.symm
    obtain ⟨mn, hmn⟩ := Option.isSome_iff_exists.mp (listMin_isSome hminsne)
    obtain ⟨mx, hmx⟩ := Option.isSome_iff_exists.mp (listMax_isSome hmaxsne)
    refine ⟨⟨List.insertionSort vecLe vs, mx - mn⟩, ?_, mn, mx, ?_, ?_, ?_, rfl⟩
    · unfold set_offset_vectors
      rw [hmins, hmaxs]
      simp only
      rw [hmn, hmx]
    · obtain ⟨v, hv, hvmin⟩ := listMapM_backward hmins mn (listMin_mem hmn)
      have : mn ∈ v.map Prod.snd := listMin_mem hvmin
      exact List.mem_flatMap.mpr ⟨v, hv, this⟩
    · obtain ⟨v, hv, hvmax⟩ := listMapM_backward hmaxs mx (listMax_mem hmx)
      have : mx ∈ v.map Prod.snd := listMax_mem hvmax
      exact List.mem_flatMap.mpr ⟨v, hv, this⟩
    · intro o ho
      obtain ⟨v, hv, hov⟩ := List.mem_flatMap.mp ho
      obtain ⟨mv, hmvmem, hmv⟩ := listMapM_forward hmins v hv
      obtain ⟨Mv, hMvmem, hMv⟩ := listMapM_forward hmaxs v hv
      constructor
      · exact le_trans (listMin_le hmn mv hmvmem) (listMin_le hmv o hov)
      · exact le_trans (listMax_ge hMv o hov) (listMax_ge hmx Mv hMvmem)

/-- C8 witness. -/
theorem c8_configure_amended_witness :
    (c2vecs ≠ [] ∧ ∀ v ∈ c2vecs, v ≠ [])
  ∧ ∃ cfg, set_offset_vectors c2vecs = some cfg
      ∧ ∃ mn mx, mn ∈ allOffsets c2vecs ∧ mx ∈ allOffsets c2vecs
          ∧ (∀ o ∈ allOffsets c2vecs, mn ≤ o ∧ o ≤ mx)
          ∧ cfg.max_gap = mx - mn :=
  ⟨⟨by decide, by decide⟩, c8_configure_amended.2 c2vecs (by decide) (by decide)⟩

theorem packWith_eq_sort (cfg : Config) (bins : List Bin) (nb : Bin)
    (bins2 : List Bin) (h : packWith cfg bins nb = some bins2) :
    ∃ l, bins2 = List.insertionSort binLe l := by
  unfold packWith at h
  split at h
  · exact ⟨_, (Option.some.inj h).symm⟩
  · split at h
    · cases h
    · split at h
      · cases h
      · exact ⟨_, (Option.some.inj h).symm⟩

theorem pack_eq_sort (cfg : Config) (bins : List Bin) (e : Entry)
    (bins2 : List Bin) (h : pack cfg bins e = some bins2) :
    ∃ l, bins2 = List.insertionSort binLe l := by
  unfold pack at h
  cases hnb : mkBin e with
  | none => rw [hnb] at h; cases h
  | some nb =>
    rw [hnb] at h
    exact packWith_eq_sort cfg bins nb bins2 h

/-- C6: after every pack() call the bin list is sorted ascending by
extent, primarily by interval start and tie-broken by end (the segLe
order on extents), so the ordering invariant holds at entry to every
subsequent call. -/
theorem c6_bins_sorted_after_pack (cfg : Config) (bins : List Bin) (e : Entry)
    (bins2 : List Bin) (h : pack cfg bins e = some bins2) :
    List.Sorted binLe bins2 := by
  obtain ⟨l, rfl⟩ := pack_eq_sort cfg bins e bins2 h
  exact List.sorted_insertionSort binLe l

/-- C6 witness. -/
theorem c6_bins_sorted_witness :
    pack c1cfg c5bins c1e3 = some c5out ∧ List.Sorted binLe c5out :=
  ⟨by decide, c6_bins_sorted_after_pack c1cfg c5bins c1e3 c5out (by decide)⟩

theorem objsM_append (a b : List Bin) : objsM (a ++ b) = objsM a + objsM b := by
  unfold objsM
  rw [List.map_append, List.sum_append]

theorem objsM_perm {a b : List Bin} (h : a.Perm b) : objsM a = objsM b :=
  List.Perm.sum_eq (h.map _)

theorem objsM_reverse (l : List Bin) : objsM l.reverse = objsM l :=
  objsM_perm (List.reverse_perm l)

theorem objsM_sort (l : List Bin) : objsM (List.insertionSort binLe l) = objsM l :=
  objsM_perm (List.perm_insertionSort binLe l)

theorem objsM_flatten (l : List Bin) :
    (((l.map LALCacheBin.objects).flatten : List Entry) : Multiset Entry) = objsM l := by
  induction l with
  | nil => rfl
  | cons b rest ih =>
    simp only [List.map_cons, List.flatten_cons, objsM, List.sum_cons] at *
    rw [← ih]
    simp

theorem mkBin_objects {e : Entry} {nb : Bin} (h : mkBin e = some nb) :
    nb.objects = [e] := by
  unfold mkBin at h
  obtain ⟨ext, hext, rfl⟩ := Option.map_eq_some'.mp h
  rfl

theorem binIAdd_objects {a b c : Bin} (h : binIAdd a b = some c) :
    c.objects = a.objects ++ b.objects := by
  unfold binIAdd at h
  obtain ⟨ext, hext, rfl⟩ := Option.map_eq_some'.mp h
  rfl

theorem binFoldM_objects :
    ∀ {l : List Bin} {acc out : Bin}, binFoldM acc l = some out →
      out.objects = acc.objects ++ (l.map LALCacheBin.objects).flatten := by
  intro l
  induction l with
  | nil =>
    intro acc out h
    cases h
    simp
  | cons b rest ih =>
    intro acc out h
    unfold binFoldM at h
    cases hia : binIAdd acc b with
    | none => rw [hia] at h; cases h
    | some acc2 =>
      rw [hia] at h
      rw [ih h, binIAdd_objects hia]
      simp

theorem filter_partition_perm (p : α → Bool) (l : List α) :
    (l.filter p ++ l.filter fun x => !p x).Perm l := by
  induction l with
  | nil => rfl
  | cons a l ih =>
    cases hpa : p a
    · simp only [List.filter_cons, hpa, Bool.not_false, cond_false, cond_true]
      exact List.perm_middle.trans (ih.cons a)
    · simp only [List.filter_cons, hpa, Bool.not_true, cond_false, cond_true]
      exact ih.cons a

theorem scanned_append_unscanned (cfg : Config) (bins : List Bin) (nb : Bin) :
    packScanned cfg bins nb ++ packUnscanned cfg bins nb = bins.reverse := by
  unfold packScanned packUnscanned
  exact List.takeWhile_append_dropWhile _ _

theorem matched_unmatched_perm (cfg : Config) (bins : List Bin) (nb : Bin) :
    (packMatched cfg bins nb ++ packUnmatched cfg bins nb).Perm
      (packScanned cfg bins nb) :=
  filter_partition_perm _ _

theorem packWith_objsM (cfg : Config) (bins : List Bin) (nb : Bin) (bins2 : List Bin)
    (h : packWith cfg bins nb = some bins2) :
    objsM bins2 = objsM bins + (↑nb.objects : Multiset Entry) := by
  unfold packWith at h
  split at h
  · rename_i heq
    obtain rfl := Option.some.inj h
    rw [objsM_sort, objsM_append]
    simp [objsM]
  · rename_i m ms heq
    cases hia : binIAdd ((m :: ms).getLast (List.cons_ne_nil m ms)) nb with
    | none => rw [hia] at h; cases h
    | some merged0 =>
      rw [hia] at h
      simp only at h
      cases hfold : binFoldM merged0 (m :: ms).dropLast with
      | none => rw [hfold] at h; cases h
      | some merged =>
        rw [hfold] at h
        obtain rfl := Option.some.inj h
        have hbins : objsM (packMatched cfg bins nb) + objsM (packUnmatched cfg bins nb)
            + objsM (packUnscanned cfg bins nb) = objsM bins := by
          have h1 := objsM_perm (matched_unmatched_perm cfg bins nb)
          rw [objsM_append] at h1
          have h2 := objsM_append (packScanned cfg bins nb) (packUnscanned cfg bins nb)
          rw [scanned_append_unscanned, objsM_reverse] at h2
          rw [h1, ← h2]
        have hmm : objsM (packMatched cfg bins nb) =
            objsM ((m :: ms).dropLast)
              + (↑((m :: ms).getLast (List.cons_ne_nil m ms)).objects : Multiset Entry) := by
          rw [heq]
          conv_lhs => rw [← List.dropLast_append_getLast (List.cons_ne_nil m ms)]
          rw [objsM_append]
          simp [objsM]
        have hmo : (↑merged.objects : Multiset Entry) =
            (↑((m :: ms).getLast (List.cons_ne_nil m ms)).objects : Multiset Entry)
              + ↑nb.objects + objsM ((m :: ms).dropLast) := by
          rw [binFoldM_objects hfold, binIAdd_objects hia, ← objsM_flatten,
            Multiset.coe_add, Multiset.coe_add]
        rw [objsM_sort, objsM_append, objsM_append, objsM_reverse, objsM_reverse]
        have hsm : objsM [merged] = (↑merged.objects : Multiset Entry) := by
          simp [objsM]
        rw [hsm, hmo, ← hbins, hmm]
        abel

theorem pack_objsM (cfg : Config) (bins : List Bin) (e : Entry) (bins2 : List Bin)
    (h : pack cfg bins e = some bins2) :
    objsM bins2 = objsM bins + {e} := by
  unfold pack at h
  cases hnb : mkBin e with
  | none => rw [hnb] at h; cases h
  | some nb =>
    rw [hnb] at h
    have h2 := packWith_objsM cfg bins nb bins2 h
    rw [mkBin_objects hnb] at h2
    simpa using h2

theorem packAll_objsM (cfg : Config) :
    ∀ (entries : List Entry) (bins0 bins : List Bin),
      packAll cfg bins0 entries = some bins →
      objsM bins = objsM bins0 + (↑entries : Multiset Entry) := by
  intro entries
  induction entries with
  | nil =>
    intro bins0 bins h
    cases h
    simp
  | cons e rest ih =>
    intro bins0 bins h
    unfold packAll at h
    cases hp : pack cfg bins0 e with
    | none => rw [hp] at h; cases h
    | some bins1 =>
      rw [hp] at h
      rw [ih bins1 bins h, pack_objsM cfg bins0 e bins1 hp]
      rw [← Multiset.cons_coe, ← Multiset.singleton_add]
      abel

/-- C3: after any sequence of pack() calls starting from an empty bin
list, the multiset union of the members of all bins equals exactly the
multiset of entries packed so far -- each packed entry sits in exactly
one bin, with no duplicates and no omissions. -/
theorem c3_pack_partition (cfg : Config) (entries : List Entry) (bins : List Bin)
    (h : packAll cfg [] entries = some bins) :
    objsM bins = (↑entries : Multiset Entry) := by
  have h2 := packAll_objsM cfg entries [] bins h
  rw [h2]
  show (0 : Multiset Entry) + ↑entries = ↑entries
  rw [zero_add]

/-- C3 witness. -/
theorem c3_pack_partition_witness :
    packAll c2cfg [] [c2e1, c2e3, c2e2] = some c2packed
  ∧ objsM c2packed = (↑[c2e1, c2e3, c2e2] : Multiset Entry) :=
  ⟨by decide, c3_pack_partition c2cfg [c2e1, c2e3, c2e2] c2packed (by decide)⟩

theorem objsM_cons (b : Bin) (l : List Bin) :
    objsM (b :: l) = (↑b.objects : Multiset Entry) + objsM l := by
  simp [objsM]

theorem mem_objsM {e : Entry} :
    ∀ {bins : List Bin}, e ∈ objsM bins ↔ ∃ b ∈ bins, e ∈ b.objects := by
  intro bins
  induction bins with
  | nil => simp [objsM]
  | cons b rest ih =>
    rw [objsM_cons]
    simp only [Multiset.mem_add, Multiset.mem_coe, ih]
    constructor
    · rintro (h | ⟨b2, hb2, he⟩)
      · exact ⟨b, List.mem_cons_self b rest, h⟩
      · exact ⟨b2, List.mem_cons.mpr (Or.inr hb2), he⟩
    · rintro ⟨b2, hb2, he⟩
      rcases List.mem_cons.mp hb2 with h2 | h2
      · subst h2; exact Or.inl he
      · exact Or.inr ⟨b2, h2, he⟩

theorem splitOne_shape {cfg : Config} {b : Bin} {n : ℕ} {nbs : List Bin}
    (h : splitOne cfg b n = some nbs) :
    ∀ nb ∈ nbs, ∃ nb0 : Bin,
      nb = { nb0 with objects := b.objects.filter (entryMatches cfg nb0) } := by
  intro nb hnb
  unfold splitOne at h
  cases hm : listMapM
      (fun w =>
        match extent_all (clipDict b.size w) with
        | some ext => some (⟨[], clipDict b.size w, ext⟩ : Bin)
        | none => none)
      (windows b.extent n) with
  | none => rw [hm] at h; cases h
  | some nbs0 =>
    rw [hm] at h
    obtain rfl := Option.some.inj h
    obtain ⟨nb0, hnb0, rfl⟩ := List.mem_map.mp hnb
    exact ⟨nb0, rfl⟩

theorem splitOne_objects_subset {cfg : Config} {b : Bin} {n : ℕ} {nbs : List Bin}
    (h : splitOne cfg b n = some nbs) :
    ∀ nb ∈ nbs, ∀ e ∈ nb.objects, e ∈ b.objects := by
  intro nb hnb e he
  obtain ⟨nb0, rfl⟩ := splitOne_shape h nb hnb
  exact List.mem_of_mem_filter he

theorem split_bins_objects_subset (cfg : Config) (L : ℚ) :
    ∀ {bins out : List Bin}, split_bins cfg L bins = some out →
      ∀ b2 ∈ out, ∀ e ∈ b2.objects, ∃ b ∈ bins, e ∈ b.objects := by
  intro bins
  induction bins with
  | nil =>
    intro out h b2 hb2
    cases h
    cases hb2
  | cons b rest ih =>
    intro out h b2 hb2 e he
    unfold split_bins at h
    split at h
    · cases hrest : split_bins cfg L rest with
      | none => rw [hrest] at h; cases h
      | some out2 =>
        rw [hrest] at h
        obtain rfl := Option.some.inj h
        rcases List.mem_cons.mp hb2 with h2 | h2
        · exact ⟨b, List.mem_cons_self b rest, h2 ▸ he⟩
        · obtain ⟨b3, hb3, he3⟩ := ih hrest b2 h2 e he
          exact ⟨b3, List.mem_cons.mpr (Or.inr hb3), he3⟩
    · cases hsp : splitOne cfg b (⌈(b.extent.hi - b.extent.lo) / L⌉ : ℤ).toNat with
      | none => rw [hsp] at h; cases h
      | some nbs =>
        rw [hsp] at h
        cases hrest : split_bins cfg L rest with
        | none => rw [hrest] at h; cases h
        | some out2 =>
          rw [hrest] at h
          obtain rfl := Option.some.inj h
          rcases List.mem_append.mp hb2 with h2 | h2
          · exact ⟨b, List.mem_cons_self b rest,
              splitOne_objects_subset hsp b2 h2 e he⟩
          · obtain ⟨b3, hb3, he3⟩ := ih hrest b2 h2 e he
            exact ⟨b3, List.mem_cons.mpr (Or.inr hb3), he3⟩

/-- C7: the driver's filtering step keeps exactly the entries whose
per-instrument segment-set passes intersects_all against the
coincident-coverage map (stated here for an arbitrary coverage map,
which includes the one the driver computes); an entry with no segment
data for any instrument is always dropped -- intersects_all is a total
function returning false on the empty dict, no error is raised -- and
an entry dropped by the filter never appears in any bin produced by
the packing-and-splitting phase run on the filtered list. -/
theorem c7_filter_semantics (sl : SLDict) (cache : List Entry) :
    (∀ e, e ∈ cafe_filter sl cache ↔
        e ∈ cache ∧ intersects_all sl e.to_segmentlistdict = true)
  ∧ (∀ e, e.insts = [] → e ∉ cafe_filter sl cache)
  ∧ (∀ vs L bins, packer_phase vs (cafe_filter sl cache) L = some bins →
      ∀ b ∈ bins, ∀ e ∈ b.objects, e ∈ cafe_filter sl cache) := by
  refine ⟨fun e => List.mem_filter, ?_, ?_⟩
  · intro e hempty hmem
    have h2 := (List.mem_filter.mp hmem).2
    have h3 : e.to_segmentlistdict = [] := by
      unfold Entry.to_segmentlistdict
      rw [hempty]
      rfl
    rw [h3] at h2
    have h4 : intersects_all sl ([] : SLDict) = false := rfl
    rw [h4] at h2
    cases h2
  · intro vs L bins h b hb e he
    unfold packer_phase at h
    cases hcfg : set_offset_vectors vs with
    | none => rw [hcfg] at h; cases h
    | some cfg =>
      rw [hcfg] at h
      simp only at h
      cases hpa : packAll cfg [] (List.insertionSort entryLe (cafe_filter sl cache)) with
      | none => rw [hpa] at h; cases h
      | some bins0 =>
        rw [hpa] at h
        simp only at h
        have hsorted : ∀ b2 ∈ bins0, ∀ e2 ∈ b2.objects, e2 ∈ cafe_filter sl cache := by
          intro b2 hb2 e2 he2
          have hobj := packAll_objsM cfg _ [] bins0 hpa
          have hmem : e2 ∈ objsM bins0 := mem_objsM.mpr ⟨b2, hb2, he2⟩
          rw [hobj] at hmem
          have : e2 ∈ (↑(List.insertionSort entryLe (cafe_filter sl cache)) : Multiset Entry) := by
            simpa [objsM] using hmem
          rw [Multiset.mem_coe] at this
          exact ((List.perm_insertionSort entryLe (cafe_filter sl cache)).mem_iff).mp this
        cases L with
        | none =>
          obtain rfl := Option.some.inj h
          exact hsorted b hb e he
        | some lim =>
          obtain ⟨b0, hb0, he0⟩ := split_bins_objects_subset cfg lim h b hb e he
          exact hsorted b0 hb0 e he0

/-- C7 witness. -/
theorem c7_filter_semantics_witness :
    (c7empty.insts = [] ∧ c7empty ∉ cafe_filter c7sl c7cache)
  ∧ (c7good ∈ cafe_filter c7sl c7cache ↔
      c7good ∈ c7cache ∧ intersects_all c7sl c7good.to_segmentlistdict = true) :=
  ⟨⟨rfl, (c7_filter_semantics c7sl c7cache).2.1 c7empty rfl⟩,
    (c7_filter_semantics c7sl c7cache).1 c7good⟩

theorem entryVecLoop_iff (sld : SLDict) (ext : Seg) :
    ∀ (vs : List OffsetVec) (off : List (Inst × ℚ)),
      entryVecLoop sld ext vs off = true ↔
        ∃ o ∈ cumOffs off vs, intersects_segment (applyOff o sld) ext = true := by
  intro vs
  induction vs with
  | nil => intro off; simp [entryVecLoop, cumOffs]
  | cons v rest ih =>
    intro off
    show (if intersects_segment (applyOff (offUpdate off v) sld) ext then true
        else entryVecLoop sld ext rest (offUpdate off v)) = true ↔
      ∃ o ∈ offUpdate off v :: cumOffs (offUpdate off v) rest,
        intersects_segment (applyOff o sld) ext = true
    by_cases hI : intersects_segment (applyOff (offUpdate off v) sld) ext = true
    · rw [if_pos hI]
      constructor
      · intro _
        exact ⟨offUpdate off v, List.mem_cons_self _ _, hI⟩
      · intro _
        rfl
    · rw [if_neg hI, ih (offUpdate off v)]
      constructor
      · rintro ⟨o, ho, hint⟩
        exact ⟨o, List.mem_cons.mpr (Or.inr ho), hint⟩
      · rintro ⟨o, ho, hint⟩
        rcases List.mem_cons.mp ho with h2 | h2
        · subst h2; exact absurd hint hI
        · exact ⟨o, h2, hint⟩

/-- C2 (amended): during split_bins, a member entry of a bin being split
is appended to EVERY sub-bin (scanned in interval order) for which its
unshifted segment is not disjoint from the sub-bin's max_gap-extended
extent and some accumulated-offset state of the canonical vector loop
makes its shifted segment-set intersect the sub-bin's unextended
extent; the scan does not stop at the first match, so an entry can be
appended to several sub-bins and the exactly-once partition property
can fail after splitting. -/
theorem c2_subbin_membership (cfg : Config) (b : Bin) (n : ℕ) (nbs : List Bin)
    (nb : Bin) (e : Entry) (hs : splitOne cfg b n = some nbs) (hnb : nb ∈ nbs) :
    e ∈ nb.objects ↔
      e ∈ b.objects
      ∧ segDisjoint e.seg (nb.extent.protract cfg.max_gap) = false
      ∧ ∃ off ∈ cumOffs [] cfg.offset_vectors,
          intersects_segment (applyOff off e.to_segmentlistdict) nb.extent = true := by
  obtain ⟨nb0, rfl⟩ := splitOne_shape hs nb hnb
  show e ∈ b.objects.filter (entryMatches cfg nb0) ↔
      e ∈ b.objects
      ∧ segDisjoint e.seg (nb0.extent.protract cfg.max_gap) = false
      ∧ ∃ off ∈ cumOffs [] cfg.offset_vectors,
          intersects_segment (applyOff off e.to_segmentlistdict) nb0.extent = true
  rw [List.mem_filter]
  show e ∈ b.objects ∧ (if segDisjoint e.seg (nb0.extent.protract cfg.max_gap) then false
      else entryVecLoop e.to_segmentlistdict nb0.extent cfg.offset_vectors []) = true ↔ _
  by_cases hd : segDisjoint e.seg (nb0.extent.protract cfg.max_gap) = true
  · rw [if_pos hd]
    constructor
    · rintro ⟨-, h⟩; cases h
    · rintro ⟨-, hds, -⟩
      rw [hd] at hds
      cases hds
  · have hd2 : segDisjoint e.seg (nb0.extent.protract cfg.max_gap) = false := by
      simpa using hd
    rw [if_neg hd, entryVecLoop_iff]
    constructor
    · rintro ⟨h1, h2⟩; exact ⟨h1, hd2, h2⟩
    · rintro ⟨h1, -, h2⟩; exact ⟨h1, h2⟩

/-- C2 witness for the amended membership rule, instantiated at the
duplicated entry and the second sub-bin of the concrete run. -/
theorem c2_subbin_membership_witness :
    (splitOne c2cfg c2bin 2 = some c2nbs ∧ c2sb2 ∈ c2nbs)
  ∧ (c2e2 ∈ c2sb2.objects ↔
      c2e2 ∈ c2bin.objects
      ∧ segDisjoint c2e2.seg (c2sb2.extent.protract c2cfg.max_gap) = false
      ∧ ∃ off ∈ cumOffs [] c2cfg.offset_vectors,
          intersects_segment (applyOff off c2e2.to_segmentlistdict) c2sb2.extent = true) :=
  ⟨⟨by decide, by decide⟩,
    c2_subbin_membership c2cfg c2bin 2 c2nbs c2sb2 c2e2 (by decide) (by decide)⟩

theorem vecLe_total : ∀ (a b : List (Inst × ℚ)), vecLe a b ∨ vecLe b a := by
  intro a
  induction a with
  | nil => intro b; exact Or.inl trivial
  | cons x xs ih =>
    intro b
    cases b with
    | nil => exact Or.inr trivial
    | cons y ys =>
      show (x.1 < y.1 ∨ (x.1 = y.1 ∧ (x.2 < y.2 ∨ (x.2 = y.2 ∧ vecLe xs ys))))
        ∨ (y.1 < x.1 ∨ (y.1 = x.1 ∧ (y.2 < x.2 ∨ (y.2 = x.2 ∧ vecLe ys xs))))
      rcases lt_trichotomy x.1 y.1 with h | h | h
      · exact Or.inl (Or.inl h)
      · rcases lt_trichotomy x.2 y.2 with h2 | h2 | h2
        · exact Or.inl (Or.inr ⟨h, Or.inl h2⟩)
        · rcases ih ys with h3 | h3
          · exact Or.inl (Or.inr ⟨h, Or.inr ⟨h2, h3⟩⟩)
          · exact Or.inr (Or.inr ⟨h.symm, Or.inr ⟨h2.symm, h3⟩⟩)
        · exact Or.inr (Or.inr ⟨h.symm, Or.inl h2⟩)
      · exact Or.inr (Or.inl h)

theorem vecLe_trans : ∀ (a b c : List (Inst × ℚ)),
    vecLe a b → vecLe b c → vecLe a c := by
  intro a
  induction a with
  | nil => intro b c _ _; trivial
  | cons x xs ih =>
    intro b c hab hbc
    cases b with
    | nil => cases hab
    | cons y ys =>
      cases c with
      | nil => cases hbc
      | cons z zs =>
        show x.1 < z.1 ∨ (x.1 = z.1 ∧ (x.2 < z.2 ∨ (x.2 = z.2 ∧ vecLe xs zs)))
        rcases hab with h1 | ⟨h1, h1b⟩
        · rcases hbc with h2 | ⟨h2, h2b⟩
          · exact Or.inl (h1.trans h2)
          · exact Or.inl (h2 ▸ h1)
        · rcases hbc with h2 | ⟨h2, h2b⟩
          · exact Or.inl (h1 ▸ h2)
          · refine Or.inr ⟨h1.trans h2, ?_⟩
            rcases h1b with h3 | ⟨h3, h3b⟩
            · rcases h2b with h4 | ⟨h4, h4b⟩
              · exact Or.inl (h3.trans h4)
              · exact Or.inl (h4 ▸ h3)
            · rcases h2b with h4 | ⟨h4, h4b⟩
              · exact Or.inl (h3 ▸ h4)
              · exact Or.inr ⟨h3.trans h4, ih ys zs h3b h4b⟩

theorem vecLe_antisymm : ∀ (a b : List (Inst × ℚ)),
    vecLe a b → vecLe b a → a = b := by
  intro a
  induction a with
  | nil =>
    intro b _ hba
    cases b with
    | nil => rfl
    | cons y ys => cases hba
  | cons x xs ih =>
    intro b hab hba
    cases b with
    | nil => cases hab
    | cons y ys =>
      rcases hab with h1 | ⟨h1, h1b⟩
      · rcases hba with h2 | ⟨h2, h2b⟩
        · exact absurd (h1.trans h2) (lt_irrefl _)
        · rw [h2] at h1; exact absurd h1 (lt_irrefl _)
      · rcases hba with h2 | ⟨h2, h2b⟩
        · rw [h1] at h2; exact absurd h2 (lt_irrefl _)
        · rcases h1b with h3 | ⟨h3, h3b⟩
          · rcases h2b with h4 | ⟨h4, h4b⟩
            · exact absurd (h3.trans h4) (lt_irrefl _)
            · exfalso; rw [h4] at h3; exact lt_irrefl _ h3
          · rcases h2b with h4 | ⟨h4, h4b⟩
            · exfalso; rw [h3] at h4; exact lt_irrefl _ h4
            · have hrest := ih ys h3b h4b
              have hx : x = y := Prod.ext h1 h3
              rw [hx, hrest]

instance : IsTotal (List (Inst × ℚ)) vecLe := ⟨vecLe_total⟩

instance : IsTrans (List (Inst × ℚ)) vecLe := ⟨vecLe_trans⟩

instance : IsAntisymm (List (Inst × ℚ)) vecLe := ⟨vecLe_antisymm⟩

theorem canonSort_perm_eq {vs1 vs2 : List OffsetVec} (h : vs1.Perm vs2) :
    List.insertionSort vecLe vs1 = List.insertionSort vecLe vs2 :=
  List.eq_of_perm_of_sorted
    ((List.perm_insertionSort vecLe vs1).trans
      (h.trans (List.perm_insertionSort vecLe vs2).symm))
    (List.sorted_insertionSort vecLe vs1)
    (List.sorted_insertionSort vecLe vs2)

theorem listMapM_eq_none_iff {f : α → Option β} :
    ∀ {l : List α}, listMapM f l = none ↔ ∃ x ∈ l, f x = none := by
  intro l
  induction l with
  | nil => simp [listMapM]
  | cons a xs ih =>
    constructor
    · intro h
      unfold listMapM at h
      cases hfa : f a with
      | none => exact ⟨a, List.mem_cons_self a xs, hfa⟩
      | some y =>
        rw [hfa] at h
        cases hrest : listMapM f xs with
        | none =>
          obtain ⟨x, hx, hfx⟩ := ih.mp hrest
          exact ⟨x, List.mem_cons.mpr (Or.inr hx), hfx⟩
        | some ys => rw [hrest] at h; cases h
    · rintro ⟨x, hx, hfx⟩
      unfold listMapM
      rcases List.mem_cons.mp hx with h2 | h2
      · rw [h2] at hfx
        rw [hfx]
      · have hnone : listMapM f xs = none := ih.mpr ⟨x, h2, hfx⟩
        rw [hnone]
        cases hr : f a <;> rfl

theorem listMapM_mem_transfer {f : α → Option β} {l1 l2 : List α} (h : l1.Perm l2)
    {r1 r2 : List β} (h1 : listMapM f l1 = some r1) (h2 : listMapM f l2 = some r2) :
    ∀ y, y ∈ r1 ↔ y ∈ r2 := by
  have main : ∀ {la lb : List α}, la.Perm lb → ∀ {ra rb : List β},
      listMapM f la = some ra → listMapM f lb = some rb → ∀ y ∈ ra, y ∈ rb := by
    intro la lb hperm ra rb ha hb y hy
    obtain ⟨x, hx, hfx⟩ := listMapM_backward ha y hy
    obtain ⟨y2, hy2, hfy2⟩ := listMapM_forward hb x (hperm.subset hx)
    rw [hfx] at hfy2
    rw [Option.some.inj hfy2]
    exact hy2
  exact fun y => ⟨main h h1 h2 y, main h.symm h2 h1 y⟩

theorem listMin_congr {r1 r2 : List ℚ} (hm : ∀ y, y ∈ r1 ↔ y ∈ r2)
    (hn : r1 = [] ↔ r2 = []) : listMin r1 = listMin r2 := by
  cases r1 with
  | nil => rw [hn.mp rfl]
  | cons x xs =>
    obtain ⟨m1, hm1⟩ := Option.isSome_iff_exists.mp
      (listMin_isSome (List.cons_ne_nil x xs))
    rw [hm1]
    symm
    rw [listMin_eq_some_iff]
    exact ⟨(hm m1).mp (listMin_mem hm1), fun y hy => listMin_le hm1 y ((hm y).mpr hy)⟩

theorem listMax_congr {r1 r2 : List ℚ} (hm : ∀ y, y ∈ r1 ↔ y ∈ r2)
    (hn : r1 = [] ↔ r2 = []) : listMax r1 = listMax r2 := by
  cases r1 with
  | nil => rw [hn.mp rfl]
  | cons x xs =>
    obtain ⟨m1, hm1⟩ := Option.isSome_iff_exists.mp
      (listMax_isSome (List.cons_ne_nil x xs))
    rw [hm1]
    symm
    rw [listMax_eq_some_iff]
    exact ⟨(hm m1).mp (listMax_mem hm1), fun y hy => listMax_ge hm1 y ((hm y).mpr hy)⟩

theorem listMapM_perm_some {f : α → Option β} {l1 l2 : List α} (h : l1.Perm l2)
    {r1 : List β} (h1 : listMapM f l1 = some r1) :
    ∃ r2, listMapM f l2 = some r2 := by
  cases h2 : listMapM f l2 with
  | some r2 => exact ⟨r2, rfl⟩
  | none =>
    obtain ⟨x, hx, hfx⟩ := listMapM_eq_none_iff.mp h2
    have : listMapM f l1 = none := listMapM_eq_none_iff.mpr ⟨x, h.symm.subset hx, hfx⟩
    rw [this] at h1
    cases h1

theorem listMapM_none_iff_of_perm {f : α → Option β} {l1 l2 : List α} (h : l1.Perm l2) :
    listMapM f l1 = none → listMapM f l2 = none := by
  intro h1
  obtain ⟨x, hx, hfx⟩ := listMapM_eq_none_iff.mp h1
  exact listMapM_eq_none_iff.mpr ⟨x, h.subset hx, hfx⟩

/-- set_offset_vectors is invariant under permutation of the input
vector list: the canonical sort coincides (the sort key order is
antisymmetric) and max_gap is a permutation-invariant min/max. -/
theorem set_offset_vectors_perm {vs1 vs2 : List OffsetVec} (h : vs1.Perm vs2) :
    set_offset_vectors vs1 = set_offset_vectors vs2 := by
  unfold set_offset_vectors
  cases h1 : listMapM vecValsMin vs1 with
  | none =>
    rw [listMapM_none_iff_of_perm h h1]
  | some mins1 =>
    obtain ⟨mins2, hmins2⟩ := listMapM_perm_some h h1
    rw [hmins2]
    cases h3 : listMapM vecValsMax vs1 with
    | none =>
      rw [listMapM_none_iff_of_perm h h3]
    | some maxs1 =>
      obtain ⟨maxs2, hmaxs2⟩ := listMapM_perm_some h h3
      rw [hmaxs2]
      simp only
      have hlmins : mins1.length = mins2.length := by
        rw [listMapM_length h1, listMapM_length hmins2, h.length_eq]
      have hlmaxs : maxs1.length = maxs2.length := by
        rw [listMapM_length h3, listMapM_length hmaxs2, h.length_eq]
      have hminsEq : listMin mins1 = listMin mins2 :=
        listMin_congr (listMapM_mem_transfer h h1 hmins2)
          (by
            constructor
            · intro hnil
              rw [hnil] at hlmins
              exact List.length_eq_zero.mp hlmins.symm
            · intro hnil
              rw [hnil] at hlmins
              exact List.length_eq_zero.mp hlmins)
      have hmaxsEq : listMax maxs1 = listMax maxs2 :=
        listMax_congr (listMapM_mem_transfer h h3 hmaxs2)
          (by
            constructor
            · intro hnil
              rw [hnil] at hlmaxs
              exact List.length_eq_zero.mp hlmaxs.symm
            · intro hnil
              rw [hnil] at hlmaxs
              exact List.length_eq_zero.mp hlmaxs)
      rw [← hminsEq, ← hmaxsEq, canonSort_perm_eq h]

/-- C9: for a fixed (already filtered) entry list, with the driver's
required time-sort applied inside the phase, the result of configuring,
packing and optionally splitting is identical for any two orderings of
the offset-vector list: set_offset_vectors canonicalizes the vector
order and stores an order-invariant max_gap, and everything downstream
is a deterministic function of the configured state. -/
theorem c9_vector_order_irrelevant (vs1 vs2 : List OffsetVec) (h : vs1.Perm vs2)
    (cache : List Entry) (L : Option ℚ) :
    packer_phase vs1 cache L = packer_phase vs2 cache L := by
  unfold packer_phase
  rw [set_offset_vectors_perm h]

/-- C9 witness: the two orderings of the C2 vector list give the same
packed-and-split output. -/
theorem c9_vector_order_irrelevant_witness :
    c2vecs.Perm c9vecsrev
  ∧ packer_phase c2vecs [c2e1, c2e3, c2e2] (some 150)
      = packer_phase c9vecsrev [c2e1, c2e3, c2e2] (some 150) :=
  ⟨by decide,
    c9_vector_order_irrelevant c2vecs c9vecsrev (by decide) [c2e1, c2e3, c2e2] (some 150)⟩

theorem extent_all_spec {d : SLDict} {ext : Seg} (h : extent_all d = some ext) :
    (∀ s ∈ allSegs d, ext.lo ≤ s.lo ∧ s.hi ≤ ext.hi)
    ∧ (∃ s ∈ allSegs d, ext.lo = s.lo) ∧ (∃ s ∈ allSegs d, ext.hi = s.hi) := by
  unfold extent_all at h
  cases hmn : listMin ((allSegs d).map Seg.lo) with
  | none => rw [hmn] at h; cases h
  | some mn =>
  cases hmx : listMax ((allSegs d).map Seg.hi) with
  | none => rw [hmn, hmx] at h; cases h
  | some mx =>
  rw [hmn, hmx] at h
  obtain rfl := (Option.some.inj h).symm
  refine ⟨?_, ?_, ?_⟩
  · intro s hs
    constructor
    · exact listMin_le hmn s.lo (List.mem_map.mpr ⟨s, hs, rfl⟩)
    · exact listMax_ge hmx s.hi (List.mem_map.mpr ⟨s, hs, rfl⟩)
  · obtain ⟨s, hs, hlo⟩ := List.mem_map.mp (listMin_mem hmn)
    exact ⟨s, hs, hlo.symm⟩
  · obtain ⟨s, hs, hhi⟩ := List.mem_map.mp (listMax_mem hmx)
    exact ⟨s, hs, hhi.symm⟩

theorem clipDict_entry {kl : Inst × SegList} {w : XT × XT} {p : Inst × SegList} :
    (match kl.2.filterMap (clipSeg w.1 w.2) with
      | [] => none
      | l => some (kl.1, l)) = some p
    ↔ p = (kl.1, kl.2.filterMap (clipSeg w.1 w.2))
      ∧ kl.2.filterMap (clipSeg w.1 w.2) ≠ [] := by
  cases hl : kl.2.filterMap (clipSeg w.1 w.2) with
  | nil => simp
  | cons a l2 =>
    constructor
    · intro hp
      exact ⟨(Option.some.inj hp).symm, List.cons_ne_nil a l2⟩
    · rintro ⟨rfl, -⟩
      rfl

theorem mem_allSegs {d : SLDict} {s : Seg} :
    s ∈ allSegs d ↔ ∃ kl ∈ d, s ∈ kl.2 := by
  unfold allSegs
  rw [List.mem_flatten]
  constructor
  · rintro ⟨l, hl, hs⟩
    obtain ⟨kl, hkl, rfl⟩ := List.mem_map.mp hl
    exact ⟨kl, hkl, hs⟩
  · rintro ⟨kl, hkl, hs⟩
    exact ⟨kl.2, List.mem_map.mpr ⟨kl, hkl, rfl⟩, hs⟩

theorem mem_allSegs_clipDict {d : SLDict} {w : XT × XT} {s2 : Seg} :
    s2 ∈ allSegs (clipDict d w) ↔
      ∃ s ∈ allSegs d, clipSeg w.1 w.2 s = some s2 := by
  constructor
  · intro h
    obtain ⟨p, hp, hs2⟩ := mem_allSegs.mp h
    obtain ⟨kl, hkl, hgkl⟩ := List.mem_filterMap.mp hp
    obtain ⟨rfl, -⟩ := clipDict_entry.mp hgkl
    obtain ⟨s, hs, hclip⟩ := List.mem_filterMap.mp hs2
    exact ⟨s, mem_allSegs.mpr ⟨kl, hkl, hs⟩, hclip⟩
  · rintro ⟨s, hsall, hclip⟩
    obtain ⟨kl, hkl, hs⟩ := mem_allSegs.mp hsall
    have hmem : s2 ∈ kl.2.filterMap (clipSeg w.1 w.2) :=
      List.mem_filterMap.mpr ⟨s, hs, hclip⟩
    have hne : kl.2.filterMap (clipSeg w.1 w.2) ≠ [] :=
      List.ne_nil_of_mem hmem
    have hp : (kl.1, kl.2.filterMap (clipSeg w.1 w.2)) ∈ clipDict d w :=
      List.mem_filterMap.mpr ⟨kl, hkl, clipDict_entry.mpr ⟨rfl, hne⟩⟩
    exact mem_allSegs.mpr ⟨_, hp, hmem⟩

theorem mem_zip_tail :
    ∀ {l : List α} {w : α × α}, w ∈ l.zip l.tail →
      ∃ l1 l2, l = l1 ++ w.1 :: w.2 :: l2 := by
  intro l
  induction l with
  | nil => intro w h; cases h
  | cons x rest ih =>
    intro w h
    cases rest with
    | nil => cases h
    | cons y rest2 =>
      rcases List.mem_cons.mp h with h2 | h2
      · exact ⟨[], rest2, by subst h2; rfl⟩
      · obtain ⟨l1, l2, hl⟩ := ih h2
        refine ⟨x :: l1, l2, ?_⟩
        rw [List.cons_append, ← hl]

theorem consecutive_in_map_range {m : ℕ} {f : ℕ → α} {t : α} {l1 l2 : List α}
    {w1 w2 : α} (h : (List.range m).map f ++ [t] = l1 ++ w1 :: w2 :: l2) :
    (∃ i, i + 1 < m ∧ w1 = f i ∧ w2 = f (i + 1))
    ∨ (1 ≤ m ∧ w1 = f (m - 1) ∧ w2 = t) := by
  have hlen : m + 1 = l1.length + (l2.length + 2) := by
    have hc := congrArg List.length h
    simpa [List.length_append, List.length_map, List.length_range] using hc
  have hw1 : ((List.range m).map f ++ [t])[l1.length]? = some w1 := by
    rw [h, List.getElem?_append_right (le_refl l1.length)]
    simp
  have hw2 : ((List.range m).map f ++ [t])[l1.length + 1]? = some w2 := by
    rw [h, List.getElem?_append_right (by omega : l1.length ≤ l1.length + 1)]
    simp
  have hmaplen : ((List.range m).map f).length = m := by
    rw [List.length_map, List.length_range]
  by_cases hcase : l1.length + 1 < m
  · left
    have hv1 : ((List.range m).map f ++ [t])[l1.length]? = some (f l1.length) := by
      rw [List.getElem?_append_left (by omega : l1.length < ((List.range m).map f).length)]
      rw [List.getElem?_map, List.getElem?_range (by omega : l1.length < m)]
      rfl
    have hv2 : ((List.range m).map f ++ [t])[l1.length + 1]? = some (f (l1.length + 1)) := by
      rw [List.getElem?_append_left
        (by omega : l1.length + 1 < ((List.range m).map f).length)]
      rw [List.getElem?_map, List.getElem?_range (by omega : l1.length + 1 < m)]
      rfl
    exact ⟨l1.length, hcase,
      (Option.some.inj (hv1.symm.trans hw1)).symm,
      (Option.some.inj (hv2.symm.trans hw2)).symm⟩
  · right
    have hm : l1.length + 1 = m := by omega
    have hv1 : ((List.range m).map f ++ [t])[l1.length]? = some (f l1.length) := by
      rw [List.getElem?_append_left (by omega : l1.length < ((List.range m).map f).length)]
      rw [List.getElem?_map, List.getElem?_range (by omega : l1.length < m)]
      rfl
    have hv2 : ((List.range m).map f ++ [t])[l1.length + 1]? = some t := by
      rw [List.getElem?_append_right (by omega : ((List.range m).map f).length ≤ l1.length + 1)]
      have h0 : l1.length + 1 - ((List.range m).map f).length = 0 := by omega
      rw [h0]
      rfl
    refine ⟨by omega, ?_, (Option.some.inj (hv2.symm.trans hw2)).symm⟩
    have hv := (Option.some.inj (hv1.symm.trans hw1)).symm
    rw [hv]
    congr 1
    omega

theorem windows_length (ext : Seg) (n : ℕ) (hn : 1 ≤ n) :
    (windows ext n).length = n := by
  have hb : (windowBounds ext n).length = n + 1 := by
    unfold windowBounds cutPoints
    rw [List.length_cons, List.length_append, List.length_map, List.length_map,
      List.length_range, List.length_singleton]
    omega
  unfold windows
  rw [List.length_zip, List.length_tail, hb]
  omega

/-- Every split window, together with rational lower/upper bounds A, B
for whatever the window clips out of a segment within the original
extent, with B - A exactly one n-th of the extent duration. -/
theorem windows_spec {ext : Seg} {n : ℕ} (hn : 2 ≤ n) {w : XT × XT}
    (hw : w ∈ windows ext n) :
    ∃ A B : ℚ, B - A = (ext.hi - ext.lo) / (n : ℚ)
      ∧ ∀ s s2 : Seg, ext.lo ≤ s.lo → s.hi ≤ ext.hi →
          clipSeg w.1 w.2 s = some s2 → A ≤ s2.lo ∧ s2.hi ≤ B := by
  have hn0 : ((n : ℚ)) ≠ 0 := Nat.cast_ne_zero.mpr (by omega)
  have hw2 : w ∈ (windowBounds ext n).zip (windowBounds ext n).tail := hw
  obtain ⟨l1, l2, hb⟩ := mem_zip_tail hw2
  unfold windowBounds at hb
  cases l1 with
  | nil =>
    rw [List.nil_append] at hb
    injection hb with h1 h2
    obtain ⟨m, hm⟩ : ∃ m, n - 1 = m + 1 := ⟨n - 2, by omega⟩
    have hcuts : cutPoints ext n =
        (ext.lo + ((0 : ℚ) + 1) * (ext.hi - ext.lo) / (n : ℚ))
          :: (List.range m).map
              ((fun i : ℕ => ext.lo + ((i : ℚ) + 1) * (ext.hi - ext.lo) / (n : ℚ))
                ∘ Nat.succ) := by
      unfold cutPoints
      rw [hm, List.range_succ_eq_map, List.map_cons, List.map_map]
      norm_num
    rw [hcuts, List.map_cons, List.cons_append] at h2
    injection h2 with h2a h2b
    refine ⟨ext.lo, ext.lo + ((0 : ℚ) + 1) * (ext.hi - ext.lo) / (n : ℚ), by ring, ?_⟩
    intro s s2 hslo hshi hclip
    rw [← h1, ← h2a] at hclip
    simp only [clipSeg] at hclip
    split at hclip
    · obtain rfl := (Option.some.inj hclip).symm
      exact ⟨hslo, min_le_right _ _⟩
    · cases hclip
  | cons x l1b =>
    injection hb with h1 h2
    have h3 : (List.range (n - 1)).map
          (fun i : ℕ => XT.fin (ext.lo + ((i : ℚ) + 1) * (ext.hi - ext.lo) / (n : ℚ)))
          ++ [XT.pos] = l1b ++ w.1 :: w.2 :: l2 := by
      have hmm : (cutPoints ext n).map XT.fin = (List.range (n - 1)).map
          (fun i : ℕ => XT.fin (ext.lo + ((i : ℚ) + 1) * (ext.hi - ext.lo) / (n : ℚ))) := by
        unfold cutPoints
        rw [List.map_map]
        rfl
      rw [← hmm]
      exact h2
    rcases consecutive_in_map_range h3 with ⟨i, hi, hw1, hw2b⟩ | ⟨hm1, hw1, hw2b⟩
    · refine ⟨ext.lo + ((i : ℚ) + 1) * (ext.hi - ext.lo) / (n : ℚ),
        ext.lo + (((i + 1 : ℕ) : ℚ) + 1) * (ext.hi - ext.lo) / (n : ℚ), ?_, ?_⟩
      · push_cast
        ring
      · intro s s2 hslo hshi hclip
        rw [hw1, hw2b] at hclip
        simp only [clipSeg] at hclip
        split at hclip
        · obtain rfl := (Option.some.inj hclip).symm
          exact ⟨le_max_right _ _, min_le_right _ _⟩
        · cases hclip
    · have hcast : ((n - 1 - 1 : ℕ) : ℚ) = (n : ℚ) - 2 := by
        have hnn : (n - 1 - 1 : ℕ) = n - 2 := by omega
        rw [hnn, Nat.cast_sub (by omega)]
        norm_num
      refine ⟨ext.lo + (((n - 1 - 1 : ℕ) : ℚ) + 1) * (ext.hi - ext.lo) / (n : ℚ),
        ext.hi, ?_, ?_⟩
      · rw [hcast]
        field_simp
        ring
      · intro s s2 hslo hshi hclip
        rw [hw1, hw2b] at hclip
        simp only [clipSeg] at hclip
        split at hclip
        · obtain rfl := (Option.some.inj hclip).symm
          exact ⟨le_max_right _ _, hshi⟩
        · cases hclip

theorem splitOne_bins {cfg : Config} {b : Bin} {n : ℕ} {nbs : List Bin}
    (h : splitOne cfg b n = some nbs) :
    nbs.length = (windows b.extent n).length
    ∧ ∀ nb ∈ nbs, ∃ w ∈ windows b.extent n,
        extent_all (clipDict b.size w) = some nb.extent := by
  unfold splitOne at h
  cases hm : listMapM
      (fun w =>
        match extent_all (clipDict b.size w) with
        | some ext => some (⟨[], clipDict b.size w, ext⟩ : Bin)
        | none => none)
      (windows b.extent n) with
  | none => rw [hm] at h; cases h
  | some nbs0 =>
    rw [hm] at h
    obtain rfl := Option.some.inj h
    constructor
    · rw [List.length_map]
      exact listMapM_length hm
    · intro nb hnb
      obtain ⟨nb0, hnb0, rfl⟩ := List.mem_map.mp hnb
      obtain ⟨w, hwmem, hF⟩ := listMapM_backward hm nb0 hnb0
      cases hext : extent_all (clipDict b.size w) with
      | none => rw [hext] at hF; cases hF
      | some ext =>
        rw [hext] at hF
        obtain rfl := Option.some.inj hF
        exact ⟨w, hwmem, hext⟩

theorem div_ceil_le {d L : ℚ} (hL : 0 < L) (h2 : 2 ≤ (⌈d / L⌉ : ℤ)) :
    d / (((⌈d / L⌉ : ℤ).toNat : ℕ) : ℚ) ≤ L := by
  have h0 : (0 : ℤ) ≤ ⌈d / L⌉ := by omega
  have hNq : (((⌈d / L⌉ : ℤ).toNat : ℕ) : ℚ) = ((⌈d / L⌉ : ℤ) : ℚ) := by
    exact_mod_cast congrArg (fun z : ℤ => (z : ℚ)) (Int.toNat_of_nonneg h0)
  have hdLN : d / L ≤ ((⌈d / L⌉ : ℤ) : ℚ) := Int.le_ceil (d / L)
  have hd : d ≤ ((⌈d / L⌉ : ℤ) : ℚ) * L := (div_le_iff₀ hL).mp hdLN
  have hNpos : (0 : ℚ) < (((⌈d / L⌉ : ℤ).toNat : ℕ) : ℚ) := by
    rw [hNq]
    exact_mod_cast (by omega : (0 : ℤ) < ⌈d / L⌉)
  rw [div_le_iff₀ hNpos, hNq]
  linarith

theorem splitOne_duration_le {cfg : Config} {L : ℚ} (hL : 0 < L) {b : Bin}
    (hwf : extent_all b.size = some b.extent)
    (hgt : ¬ (⌈(b.extent.hi - b.extent.lo) / L⌉ : ℤ) ≤ 1)
    {nbs : List Bin}
    (h : splitOne cfg b (⌈(b.extent.hi - b.extent.lo) / L⌉ : ℤ).toNat = some nbs) :
    ∀ nb ∈ nbs, nb.extent.hi - nb.extent.lo ≤ L := by
  intro nb hnb
  have h2 : 2 ≤ (⌈(b.extent.hi - b.extent.lo) / L⌉ : ℤ) := by omega
  have hn2 : 2 ≤ (⌈(b.extent.hi - b.extent.lo) / L⌉ : ℤ).toNat := by omega
  obtain ⟨-, hext⟩ := splitOne_bins h
  obtain ⟨w, hwmem, hextw⟩ := hext nb hnb
  obtain ⟨A, B, hBA, hclip⟩ := windows_spec hn2 hwmem
  have hspec := extent_all_spec hwf
  obtain ⟨hall2, ⟨sl, hsl, hslo⟩, ⟨sh, hsh, hshi⟩⟩ := extent_all_spec hextw
  have hblo : A ≤ nb.extent.lo := by
    rw [hslo]
    obtain ⟨s, hs, hcl⟩ := mem_allSegs_clipDict.mp hsl
    exact (hclip s sl (hspec.1 s hs).1 (hspec.1 s hs).2 hcl).1
  have hbhi : nb.extent.hi ≤ B := by
    rw [hshi]
    obtain ⟨s, hs, hcl⟩ := mem_allSegs_clipDict.mp hsh
    exact (hclip s sh (hspec.1 s hs).1 (hspec.1 s hs).2 hcl).2
  have hdn : (b.extent.hi - b.extent.lo) /
      (((⌈(b.extent.hi - b.extent.lo) / L⌉ : ℤ).toNat : ℕ) : ℚ) ≤ L :=
    div_ceil_le hL h2
  linarith

/-- C4: after split_bins with a positive extent limit L, on any
well-formed bin list (each bin's cached extent is extent_all of its
size), every bin of the output has extent duration at most L; bins
whose duration was already at most L are passed through unchanged; and
a bin of duration d > L is replaced by its ceil(d / L) sub-bins (the
windows cut at the evenly spaced interior points, the outermost two
extended to the infinities), all of which appear in the output. -/
theorem c4_split_bound (cfg : Config) (L : ℚ) (hL : 0 < L) :
    ∀ (bins out : List Bin), (∀ b ∈ bins, extent_all b.size = some b.extent) →
      split_bins cfg L bins = some out →
      (∀ b2 ∈ out, b2.extent.hi - b2.extent.lo ≤ L)
      ∧ (∀ b ∈ bins, b.extent.hi - b.extent.lo ≤ L → b ∈ out)
      ∧ (∀ b ∈ bins, L < b.extent.hi - b.extent.lo →
          ∃ nbs, splitOne cfg b (⌈(b.extent.hi - b.extent.lo) / L⌉ : ℤ).toNat = some nbs
            ∧ nbs.length = (⌈(b.extent.hi - b.extent.lo) / L⌉ : ℤ).toNat
            ∧ ∀ nb ∈ nbs, nb ∈ out) := by
  intro bins
  induction bins with
  | nil =>
    intro out hwf h
    cases h
    refine ⟨?_, ?_, ?_⟩
    · intro b2 hb2; cases hb2
    · intro b hb; cases hb
    · intro b hb; cases hb
  | cons b rest ih =>
    intro out hwf h
    have hwfb := hwf b (List.mem_cons_self b rest)
    have hwfrest : ∀ b2 ∈ rest, extent_all b2.size = some b2.extent :=
      fun b2 hb2 => hwf b2 (List.mem_cons.mpr (Or.inr hb2))
    unfold split_bins at h
    split at h
    · rename_i hle
      cases hrest : split_bins cfg L rest with
      | none => rw [hrest] at h; cases h
      | some out2 =>
        rw [hrest] at h
        obtain rfl := Option.some.inj h
        obtain ⟨ih1, ih2, ih3⟩ := ih out2 hwfrest hrest
        have hbL : b.extent.hi - b.extent.lo ≤ L := by
          have hh := Int.ceil_le.mp hle
          have hh2 : (b.extent.hi - b.extent.lo) / L ≤ 1 := by
            exact_mod_cast hh
          linarith [(div_le_one hL).mp hh2]
        refine ⟨?_, ?_, ?_⟩
        · intro b2 hb2
          rcases List.mem_cons.mp hb2 with h2 | h2
          · rw [h2]; exact hbL
          · exact ih1 b2 h2
        · intro b3 hb3 hb3L
          rcases List.mem_cons.mp hb3 with h2 | h2
          · rw [h2]; exact List.mem_cons_self b out2
          · exact List.mem_cons.mpr (Or.inr (ih2 b3 h2 hb3L))
        · intro b3 hb3 hgt
          rcases List.mem_cons.mp hb3 with h2 | h2
          · rw [h2] at hgt
            exact absurd hgt (not_lt.mpr hbL)
          · obtain ⟨nbs, hsp, hlen, hmem⟩ := ih3 b3 h2 hgt
            exact ⟨nbs, hsp, hlen,
              fun nb hnb => List.mem_cons.mpr (Or.inr (hmem nb hnb))⟩
    · rename_i hgt1
      cases hsp : splitOne cfg b (⌈(b.extent.hi - b.extent.lo) / L⌉ : ℤ).toNat with
      | none => rw [hsp] at h; cases h
      | some nbs =>
        rw [hsp] at h
        cases hrest : split_bins cfg L rest with
        | none => rw [hrest] at h; cases h
        | some out2 =>
          rw [hrest] at h
          obtain rfl := Option.some.inj h
          obtain ⟨ih1, ih2, ih3⟩ := ih out2 hwfrest hrest
          have hLb : L < b.extent.hi - b.extent.lo := by
            have hh := Int.lt_ceil.mp
              (by omega : (1 : ℤ) < ⌈(b.extent.hi - b.extent.lo) / L⌉)
            have hh2 : (1 : ℚ) < (b.extent.hi - b.extent.lo) / L := by
              exact_mod_cast hh
            calc L = 1 * L := (one_mul L).symm
              _ < (b.extent.hi - b.extent.lo) / L * L := by
                  exact mul_lt_mul_of_pos_right hh2 hL
              _ = b.extent.hi - b.extent.lo := div_mul_cancel₀ _ (ne_of_gt hL)
          have hbound := splitOne_duration_le hL hwfb hgt1 hsp
          refine ⟨?_, ?_, ?_⟩
          · intro b2 hb2
            rcases List.mem_append.mp hb2 with h2 | h2
            · exact hbound b2 h2
            · exact ih1 b2 h2
          · intro b3 hb3 hb3L
            rcases List.mem_cons.mp hb3 with h2 | h2
            · rw [h2] at hb3L
              exact absurd hLb (not_lt.mpr hb3L)
            · exact List.mem_append.mpr (Or.inr (ih2 b3 h2 hb3L))
          · intro b3 hb3 hgt
            rcases List.mem_cons.mp hb3 with h2 | h2
            · subst h2
              refine ⟨nbs, hsp, ?_, ?_⟩
              · obtain ⟨hlen, -⟩ := splitOne_bins hsp
                rw [hlen, windows_length]
                omega
              · intro nb hnb
                exact List.mem_append.mpr (Or.inl hnb)
            · obtain ⟨nbs2, hsp2, hlen2, hmem2⟩ := ih3 b3 h2 hgt
              exact ⟨nbs2, hsp2, hlen2,
                fun nb hnb => List.mem_append.mpr (Or.inr (hmem2 nb hnb))⟩

/-- C4 witness: a bin spanning [0, 250] split at limit 100 into three
sub-bins, each of duration at most 100. -/
theorem c4_split_bound_witness :
    ((0 : ℚ) < 100
      ∧ (∀ b ∈ [c4bin], extent_all b.size = some b.extent)
      ∧ split_bins c4cfg 100 [c4bin] = some c4out)
  ∧ (∀ b2 ∈ c4out, b2.extent.hi - b2.extent.lo ≤ 100) :=
  ⟨⟨by norm_num, by decide, by decide⟩,
    (c4_split_bound c4cfg 100 (by norm_num) [c4bin] c4out (by decide) (by decide)).1⟩

end Cafe
